import Mathlib

/-!
# Formal model of the `bordplassering` seating-optimization core

This file is a shallow embedding, in Lean 4, of the seating-optimization
algorithm of the repository (source file with `optimizeSeating`,
`assignToTables` and friends).  JavaScript numbers carrying distance values
are modelled as rationals (`ℚ`), `Set<string>` as `Finset String`,
`Map<number, number>` as an insertion-ordered association list,
JS `-1`/`undefined` results as `Option`, and the two unbounded `while`
loops (2-opt refinement, nearest-neighbor construction) as fuel-indexed
recursion; the nearest-neighbor fuel is exact (the loop runs at most
`n - 1` times), while 2-opt theorems quantify over every fuel value.
The `Infinity` initial best score of the multi-start driver is `⊤` in
`WithTop ℚ`, and the nullable `bestOverallOrder` is an `Option`.
-/

/-- `Person` record: display name plus the set of theme strings
(duplicates collapsed, as in the JS `Set`). -/
structure Person where
  name : String
  themes : Finset String
deriving DecidableEq

/-- Placeholder used to totalize list indexing; every access proved about
is in bounds. -/
def defaultPerson : Person := ⟨"", ∅⟩

/-- `people[i]` (in-bounds everywhere it is reasoned about). -/
def pget (people : List Person) (i : ℕ) : Person := people.getD i defaultPerson

/-- `route[k]` (in-bounds everywhere it is reasoned about). -/
def rget (route : List ℕ) (k : ℕ) : ℕ := route.getD k 0

/-- `commonalityDistance`: `(4 - min(|A∩B|, 4)) / 4`. -/
def commonalityDistance (a b : Finset String) : ℚ :=
  ((4 - min (a ∩ b).card 4 : ℕ) : ℚ) / 4

/-- `avgDistance`: Jaccard-style `1 - |A∩B|/|A∪B|`, and `1` when the
union is empty. -/
def avgDistance (a b : Finset String) : ℚ :=
  if (a ∪ b).card = 0 then 1 else 1 - ((a ∩ b).card : ℚ) / ((a ∪ b).card : ℚ)

/-- The `DistanceFunction` selector string union type. -/
inductive DistanceFunction
  | commonality
  | avg_distance
deriving DecidableEq

/-- The `OptimizationMode` selector string union type. -/
inductive OptimizationMode
  | poor_connections
  | distance
deriving DecidableEq

/-- `getDistanceFunction`. -/
def getDistanceFunction : DistanceFunction → (Finset String → Finset String → ℚ)
  | .commonality => commonalityDistance
  | .avg_distance => avgDistance

/-- `hasCommonThemes`: some theme of `a` is also a theme of `b`. -/
def hasCommonThemes (a b : Person) : Bool :=
  decide (a.themes ∩ b.themes).Nonempty

/-- JS `Map.get`. The map is an insertion-ordered association list; with
distinct keys `find?` returns the unique binding, like the JS `Map`. -/
def mapGet (m : List (ℕ × ℕ)) (k : ℕ) : Option ℕ :=
  (m.find? (fun e => e.1 == k)).map (fun e => e.2)

/-- JS `Map.set`: update in place if the key exists, else append. -/
def mapSet (m : List (ℕ × ℕ)) (k v : ℕ) : List (ℕ × ℕ) :=
  if m.any (fun e => e.1 == k) then m.map (fun e => if e.1 == k then (k, v) else e)
  else m ++ [(k, v)]

/-- The hard-coded `CONSTANT_PAIRS_NAMES` list. -/
def CONSTANT_PAIRS_NAMES : List (String × String) :=
  [("Majbritt Jensen", "Boris Sidorevitj"), ("Ragnhild Ås Harbo", "Janne Rygh")]

/-- `people.findIndex(p => p.name === name)`, with `-1` as `none`. -/
def findIndexOfName (people : List Person) (nm : String) : Option ℕ :=
  people.findIdx? (fun p => p.name == nm)

/-- `findConstantPairs`, generalized over the name-pair list it scans. -/
def findConstantPairsFrom (pairNames : List (String × String)) (people : List Person) :
    List (ℕ × ℕ) :=
  pairNames.foldl (fun m nm =>
    match findIndexOfName people nm.1, findIndexOfName people nm.2 with
    | some idx1, some idx2 => mapSet (mapSet m idx1 idx2) idx2 idx1
    | _, _ => m) []

/-- `findConstantPairs` over the hard-coded name list. -/
def findConstantPairs (people : List Person) : List (ℕ × ℕ) :=
  findConstantPairsFrom CONSTANT_PAIRS_NAMES people

/-- `createDistanceMatrix` as a function of two indices.  The JS code fills
both `[i][j]` and `[j][i]` (for `i < j`) with the same value, zeroes the
pinned pairs (checking `constantPairs.get(i) === j` for `i < j`) and leaves
the diagonal `0`; that array is exactly this function on in-range indices. -/
def createDistanceMatrix (people : List Person)
    (distFunc : Finset String → Finset String → ℚ)
    (constantPairs : List (ℕ × ℕ)) : ℕ → ℕ → ℚ :=
  fun i j =>
    if i = j then 0
    else if mapGet constantPairs (min i j) = some (max i j) then 0
    else distFunc (pget people (min i j)).themes (pget people (max i j)).themes

/-- One step of the two linear scans of the nearest-neighbor loop: keep the
first strict improvement over the running best distance (which starts at
`Infinity`, i.e. `none`). -/
def scanMinStep (ok : ℕ → Bool) (d : ℕ → ℚ) (best : Option (ℕ × ℚ)) (j : ℕ) :
    Option (ℕ × ℚ) :=
  match best with
  | none => if ok j then some (j, d j) else none
  | some bd => if ok j && decide (d j < bd.2) then some (j, d j) else some bd

/-- The scan itself, over `j = 0 .. n-1`. -/
def scanMin (n : ℕ) (ok : ℕ → Bool) (d : ℕ → ℚ) : Option (ℕ × ℚ) :=
  (List.range n).foldl (scanMinStep ok d) none

/-- Priorities 2–4 of the `next` selection in the nearest-neighbor loop:
the nearest unvisited person with a common theme, else the nearest
unvisited person, else (the JS `next === -1` fallback) the first
unvisited person in scan order. -/
def scanOrFallback (distMatrix : ℕ → ℕ → ℚ) (people : List Person) (n : ℕ)
    (route : List ℕ) (current : ℕ) : Option ℕ :=
  match scanMin n
      (fun j => !(route.contains j) &&
        hasCommonThemes (pget people current) (pget people j))
      (fun j => distMatrix current j) with
  | some bd => some bd.1
  | none =>
    match scanMin n (fun j => !(route.contains j))
        (fun j => distMatrix current j) with
    | some bd => some bd.1
    | none => (List.range n).find? (fun j => !(route.contains j))

/-- The body of the nearest-neighbor `while` loop that picks `next`:
priority 1 the unvisited pinned partner, then `scanOrFallback`;
`none` is JS `-1` surviving the fallback. -/
def chooseNext (distMatrix : ℕ → ℕ → ℚ) (people : List Person)
    (constantPairs : List (ℕ × ℕ)) (n : ℕ) (route : List ℕ) (current : ℕ) :
    Option ℕ :=
  match mapGet constantPairs current with
  | some pairIdx =>
    if route.contains pairIdx then scanOrFallback distMatrix people n route current
    else some pairIdx
  | none => scanOrFallback distMatrix people n route current

/-- The nearest-neighbor `while (route.length < n)` loop; the fuel is
exact since each iteration appends one index. -/
def nearestNeighborAux (distMatrix : ℕ → ℕ → ℚ) (people : List Person)
    (constantPairs : List (ℕ × ℕ)) (n : ℕ) : ℕ → List ℕ → ℕ → List ℕ
  | 0, route, _ => route
  | fuel + 1, route, current =>
    if route.length < n then
      match chooseNext distMatrix people constantPairs n route current with
      | none => route
      | some next =>
        nearestNeighborAux distMatrix people constantPairs n fuel
          (route ++ [next]) next
    else route

/-- `nearestNeighborWithCommonThemes`.  `n` is `distMatrix.length` in the
JS code; the matrix being a function here, it is passed explicitly. -/
def nearestNeighborWithCommonThemes (distMatrix : ℕ → ℕ → ℚ) (people : List Person)
    (constantPairs : List (ℕ × ℕ)) (n : ℕ) (startIdx : ℕ) : List ℕ :=
  nearestNeighborAux distMatrix people constantPairs n n [startIdx] startIdx

/-- `Math.abs(pos1 - pos2) === 1 || (pos1 === 0 && pos2 === n-1) ||
(pos2 === 0 && pos1 === n-1)`. -/
def areNeighborsAt (pos1 pos2 n : ℕ) : Bool :=
  (pos1 + 1 == pos2 || pos2 + 1 == pos1) ||
    (pos1 == 0 && pos2 == n - 1) || (pos2 == 0 && pos1 == n - 1)

/-- `wouldBreakConstantPair`. -/
def wouldBreakConstantPair (route : List ℕ) (i j : ℕ)
    (constantPairs : List (ℕ × ℕ)) : Bool :=
  if constantPairs.isEmpty then false
  else
    let n := route.length
    constantPairs.any (fun e =>
      match route.findIdx? (fun x => x == e.1), route.findIdx? (fun x => x == e.2) with
      | some pos1, some pos2 =>
        if areNeighborsAt pos1 pos2 n then
          let in1 := decide (i ≤ pos1 ∧ pos1 ≤ j)
          let in2 := decide (i ≤ pos2 ∧ pos2 ≤ j)
          if in1 != in2 then true
          else if in1 && in2 then
            !(areNeighborsAt (j - (pos1 - i)) (j - (pos2 - i)) n)
          else false
        else false
      | _, _ => false)

/-- `before` of a candidate 2-opt move. -/
def moveBefore (distMatrix : ℕ → ℕ → ℚ) (route : List ℕ) (i j : ℕ) : ℚ :=
  distMatrix (rget route (i - 1)) (rget route i) +
    distMatrix (rget route j) (rget route (j + 1))

/-- `after` of a candidate 2-opt move. -/
def moveAfter (distMatrix : ℕ → ℕ → ℚ) (route : List ℕ) (i j : ℕ) : ℚ :=
  distMatrix (rget route (i - 1)) (rget route j) +
    distMatrix (rget route i) (rget route (j + 1))

/-- The `isolationPenalty` accumulated for a candidate move: `+0.5` for
each new boundary pair without a common theme. -/
def isolationPenalty (people : List Person) (route : List ℕ) (i j : ℕ) : ℚ :=
  (if hasCommonThemes (pget people (rget route (i - 1))) (pget people (rget route j))
    then 0 else 1 / 2) +
  (if hasCommonThemes (pget people (rget route i)) (pget people (rget route (j + 1)))
    then 0 else 1 / 2)

/-- Whether the inner 2-opt loop body accepts the move `(i, j)`. -/
def acceptMove (distMatrix : ℕ → ℕ → ℚ) (people : List Person)
    (constantPairs : List (ℕ × ℕ)) (route : List ℕ) (ij : ℕ × ℕ) : Bool :=
  if wouldBreakConstantPair route ij.1 ij.2 constantPairs then false
  else if decide (moveAfter distMatrix route ij.1 ij.2 <
      moveBefore distMatrix route ij.1 ij.2) then
    decide (moveAfter distMatrix route ij.1 ij.2 +
      isolationPenalty people route ij.1 ij.2 <
        moveBefore distMatrix route ij.1 ij.2)
  else false

/-- The `(i, j)` cut points scanned by the nested 2-opt `for` loops, in
the order they are visited: `1 ≤ i < n-2`, `i < j < n-1`. -/
def candidatePairs (n : ℕ) : List (ℕ × ℕ) :=
  ((List.range n).filter (fun i => decide (1 ≤ i) && decide (i < n - 2))).flatMap
    (fun i =>
      ((List.range n).filter (fun j => decide (i + 1 ≤ j) && decide (j < n - 1))).map
        (fun j => (i, j)))

/-- One full scan of the nested loops under the first-improvement
strategy: the first accepted move, if any. -/
def findImprovement (distMatrix : ℕ → ℕ → ℚ) (people : List Person)
    (constantPairs : List (ℕ × ℕ)) (route : List ℕ) : Option (ℕ × ℕ) :=
  (candidatePairs route.length).find?
    (acceptMove distMatrix people constantPairs route)

/-- `route.splice(i, j - i + 1, ...route.slice(i, j + 1).reverse())`. -/
def reverseSegment (route : List ℕ) (i j : ℕ) : List ℕ :=
  route.take i ++ ((route.drop i).take (j - i + 1)).reverse ++ route.drop (j + 1)

/-- The `while (improved)` loop of `twoOpt`, fuel-indexed. -/
def twoOptLoop (distMatrix : ℕ → ℕ → ℚ) (people : List Person)
    (constantPairs : List (ℕ × ℕ)) : ℕ → List ℕ → List ℕ
  | 0, route => route
  | fuel + 1, route =>
    match findImprovement distMatrix people constantPairs route with
    | none => route
    | some ij =>
      twoOptLoop distMatrix people constantPairs fuel
        (reverseSegment route ij.1 ij.2)

/-- `twoOpt`. -/
def twoOpt (distMatrix : ℕ → ℕ → ℚ) (people : List Person)
    (constantPairs : List (ℕ × ℕ)) (fuel : ℕ) (route : List ℕ) : List ℕ :=
  twoOptLoop distMatrix people constantPairs fuel route

/-- The body of the `enforceConstantPairs` loop for one map entry
`(idx1, idx2)`: if both are present and not neighbors, remove the
later-positioned one and re-insert it right after its partner. -/
def enforcePairStep (route : List ℕ) (e : ℕ × ℕ) : List ℕ :=
  match route.findIdx? (fun x => x == e.1), route.findIdx? (fun x => x == e.2) with
  | some pos1, some pos2 =>
    if areNeighborsAt pos1 pos2 route.length then route
    else if pos1 < pos2 then
      let r1 := route.eraseIdx pos2
      match r1.findIdx? (fun x => x == e.1) with
      | some newPos1 => r1.insertIdx (newPos1 + 1) e.2
      | none => r1.insertIdx 0 e.2
    else
      let r1 := route.eraseIdx pos1
      match r1.findIdx? (fun x => x == e.2) with
      | some newPos2 => r1.insertIdx (newPos2 + 1) e.1
      | none => r1.insertIdx 0 e.1
  | _, _ => route

/-- `enforceConstantPairs` on a flat route. -/
def enforceConstantPairs (route : List ℕ) (constantPairs : List (ℕ × ℕ)) :
    List ℕ :=
  if constantPairs.isEmpty then route
  else constantPairs.foldl enforcePairStep route

/-- The deduplicated union of themes shared with the two route neighbors
of position `i` (the `totalCommonThemes` set of `countPoorConnections`). -/
def neighborCommon (people : List Person) (route : List ℕ) (i : ℕ) :
    Finset String :=
  (if 0 < i then
      (pget people (rget route i)).themes ∩ (pget people (rget route (i - 1))).themes
    else ∅) ∪
  (if i + 1 < route.length then
      (pget people (rget route i)).themes ∩ (pget people (rget route (i + 1))).themes
    else ∅)

/-- `countPoorConnections`: how many route positions share at most two
themes with their neighbors combined. -/
def countPoorConnections (route : List ℕ) (people : List Person) : ℕ :=
  ((List.range route.length).filter
    (fun i => decide ((neighborCommon people route i).card ≤ 2))).length

/-- `calculateTotalCost`: sum of consecutive-pair distances. -/
def calculateTotalCost (route : List ℕ) (distMatrix : ℕ → ℕ → ℚ) : ℚ :=
  match route with
  | a :: b :: rest => distMatrix a b + calculateTotalCost (b :: rest) distMatrix
  | _ => 0

/-- The result record of `optimizeSeating`.  `order` is the value behind
the non-null assertion `bestOverallOrder!`; when the JS value would be
`null` (zero attempts) the model uses `[]`, and the raw optional value is
exposed by `optimizeSeatingRaw` below. -/
structure SeatingResult where
  order : List ℕ
  score : WithTop ℚ
  people : List Person

/-- The per-attempt score under the active optimization mode. -/
def attemptScore (optimizationMode : OptimizationMode) (distMatrix : ℕ → ℕ → ℚ)
    (people : List Person) (order : List ℕ) : ℚ :=
  match optimizationMode with
  | .distance => calculateTotalCost order distMatrix
  | .poor_connections => (countPoorConnections order people : ℚ)

/-- One attempt of the multi-start loop: construct, refine, enforce. -/
def runAttempt (distMatrix : ℕ → ℕ → ℚ) (people : List Person)
    (constantPairs : List (ℕ × ℕ)) (fuel : ℕ) (startIdx : ℕ) : List ℕ :=
  enforceConstantPairs
    (twoOpt distMatrix people constantPairs fuel
      (nearestNeighborWithCommonThemes distMatrix people constantPairs
        people.length startIdx))
    constantPairs

/-- The order produced by the attempt started at `startIdx`, with the
distance matrix and pair map built (as in `optimizeSeating`) from
`people` and the selected distance function. -/
def runAttemptOf (people : List Person) (distanceFunction : DistanceFunction)
    (fuel : ℕ) (startIdx : ℕ) : List ℕ :=
  let constantPairs := findConstantPairs people
  let distMatrix :=
    createDistanceMatrix people (getDistanceFunction distanceFunction) constantPairs
  runAttempt distMatrix people constantPairs fuel startIdx

/-- The score of the attempt started at `startIdx`. -/
def attemptScoreOf (people : List Person) (distanceFunction : DistanceFunction)
    (optimizationMode : OptimizationMode) (fuel : ℕ) (startIdx : ℕ) : ℚ :=
  attemptScore optimizationMode
    (createDistanceMatrix people (getDistanceFunction distanceFunction)
      (findConstantPairs people))
    people (runAttemptOf people distanceFunction fuel startIdx)

/-- The `if (score < bestOverallScore)` update of the multi-start loop. -/
def bestStep (people : List Person) (distanceFunction : DistanceFunction)
    (optimizationMode : OptimizationMode) (fuel : ℕ)
    (best : Option (List ℕ) × WithTop ℚ) (startIdx : ℕ) :
    Option (List ℕ) × WithTop ℚ :=
  if ((attemptScoreOf people distanceFunction optimizationMode fuel startIdx :
      ℚ) : WithTop ℚ) < best.2 then
    (some (runAttemptOf people distanceFunction fuel startIdx),
      (attemptScoreOf people distanceFunction optimizationMode fuel startIdx :
        WithTop ℚ))
  else best

/-- The multi-start loop of `optimizeSeating`: `starts` is the sequence of
random start indices drawn by `Math.floor(Math.random() * n)` (one per
attempt), and the pair is `(bestOverallOrder, bestOverallScore)` with
`Infinity` as `⊤` and `null` as `none`. -/
def optimizeSeatingRaw (people : List Person) (starts : List ℕ)
    (distanceFunction : DistanceFunction) (optimizationMode : OptimizationMode)
    (fuel : ℕ) : Option (List ℕ) × WithTop ℚ :=
  starts.foldl (bestStep people distanceFunction optimizationMode fuel) (none, ⊤)

/-- `optimizeSeating`: run all attempts, re-enforce the pairs on the best
order, and return it with the best score. -/
def optimizeSeating (people : List Person) (starts : List ℕ)
    (distanceFunction : DistanceFunction) (optimizationMode : OptimizationMode)
    (fuel : ℕ) : SeatingResult :=
  let raw := optimizeSeatingRaw people starts distanceFunction optimizationMode fuel
  let constantPairs := findConstantPairs people
  let finalOrder :=
    match raw.1 with
    | some o => enforceConstantPairs o constantPairs
    | none => []
  ⟨finalOrder, raw.2, people⟩

/-- Well-formed pair map for a population of size `n`: every partner index
is in range.  `findConstantPairs` always produces such a map. -/
def PairsWF (pairs : List (ℕ × ℕ)) (n : ℕ) : Prop := ∀ e ∈ pairs, e.2 < n

/-- The distance term joining two appended route pieces. -/
def joinCost (d : ℕ → ℕ → ℚ) (X Y : List ℕ) : ℚ :=
  match X.getLast?, Y.head? with
  | some x, some y => d x y
  | _, _ => 0

/-- The per-pair body of `wouldBreakConstantPair`, named for reuse. -/
def wouldBreakEntry (route : List ℕ) (i j : ℕ) (e : ℕ × ℕ) : Bool :=
  match route.findIdx? (fun x => x == e.1), route.findIdx? (fun x => x == e.2) with
  | some pos1, some pos2 =>
    if areNeighborsAt pos1 pos2 route.length then
      let in1 := decide (i ≤ pos1 ∧ pos1 ≤ j)
      let in2 := decide (i ≤ pos2 ∧ pos2 ≤ j)
      if in1 != in2 then true
      else if in1 && in2 then
        !(areNeighborsAt (j - (pos1 - i)) (j - (pos2 - i)) route.length)
      else false
    else false
  | _, _ => false

/-- Four people for the counterexample: the pinned pair `p`,`q` (indices 1
and 3) shares no theme with `a`,`b` (indices 0 and 2); `a` and `b` share
four themes, as do `p` and `q`. -/
def splitPeople : List Person :=
  [⟨"a", {"t1", "t2", "t3", "t4"}⟩, ⟨"p", {"u1", "u2", "u3", "u4"}⟩,
    ⟨"b", {"t1", "t2", "t3", "t4"}⟩, ⟨"q", {"u1", "u2", "u3", "u4"}⟩]

/-- The pinned pair (1, 3), registered in both directions. -/
def splitPairs : List (ℕ × ℕ) := [(1, 3), (3, 1)]

/-- The commonality distance matrix of `splitPeople` with the pin. -/
def splitMatrix : ℕ → ℕ → ℚ :=
  createDistanceMatrix splitPeople commonalityDistance splitPairs

/-- A `Table`: seats hold a `Person` or are empty (`null`). -/
structure Table where
  seats : List (Option Person)
deriving DecidableEq

/-- The per-seat statistics record.  `combinedSimilarity` is the rational
value that the JS formats with `.toFixed(2)`; `commonThemes` is the
deduplicated set behind the JS array. -/
structure SeatingStatistics where
  name : String
  commonThemes : Finset String
  combinedSimilarity : ℚ
  hasCommon : Bool
  tableNumber : ℕ
  position : ℕ
deriving DecidableEq

/-- The result of `assignToTables`. -/
structure TableAssignment where
  tables : List Table
  statistics : List SeatingStatistics

/-- `tables[t]` (in-bounds in every reasoned case). -/
def tget (tables : List Table) (t : ℕ) : Table := tables.getD t ⟨[]⟩

/-- `Math.ceil(s / 2)` on naturals. -/
def ceilHalf (s : ℕ) : ℕ := (s + 1) / 2

/-- The initial snake placement loop of `assignToTables`: per table, fill
`ceil(s/2)` left seats and then up to `ceil(s/2)` right seats from the
front of the remaining route, storing the right side reversed. -/
def snakeTables (people : List Person) : List ℕ → List ℕ → List Table
  | _, [] => []
  | order, s :: rest =>
    let c := ceilHalf s
    let leftSeats := (order.take c).map (fun k => some (pget people k))
    let rightSeats := ((order.drop c).take c).map (fun k => some (pget people k))
    ⟨leftSeats ++ rightSeats.reverse⟩ ::
      snakeTables people (order.drop (c + c)) rest

/-- `findAdjacentSeat`: the circularly previous seat if empty, else the
circularly next seat if empty, else `-1` (`none`). -/
def findAdjacentSeat (t : Table) (seatIdx : ℕ) : Option ℕ :=
  let n := t.seats.length
  if n = 0 then none
  else
    let prevIdx := if seatIdx > 0 then seatIdx - 1 else n - 1
    if t.seats.getD prevIdx (some defaultPerson) = none then some prevIdx
    else
      let nextIdx := if seatIdx < n - 1 then seatIdx + 1 else 0
      if t.seats.getD nextIdx (some defaultPerson) = none then some nextIdx
      else none

/-- The `nameToPerson` map lookup (`forEach` + `Map.set`, so a later
person with the same name wins). -/
def lookupPersonByName (people : List Person) (nm : String) : Option Person :=
  people.foldl (fun acc p => if p.name == nm then some p else acc) none

/-- Locate a person by name across all tables: the scan keeps overwriting,
so the LAST matching `(table, seat)` position wins. -/
def findPersonPos (tables : List Table) (nm : String) : Option (ℕ × ℕ) :=
  (tables.enum.flatMap (fun te =>
    te.2.seats.enum.filterMap (fun se =>
      match se.2 with
      | some p => if p.name == nm then some (te.1, se.1) else none
      | none => none))).getLast?

/-- `table.seats[s] = v`. -/
def setSeat (t : Table) (s : ℕ) (v : Option Person) : Table := ⟨t.seats.set s v⟩

/-- `table.seats.splice(s, 0, person)`. -/
def insertSeat (t : Table) (s : ℕ) (p : Person) : Table :=
  ⟨t.seats.insertIdx s (some p)⟩

/-- `const nullIdx = table.seats.indexOf(null); if (nullIdx !== -1)
table.seats.splice(nullIdx, 1)`. -/
def removeFirstNull (t : Table) : Table :=
  match t.seats.findIdx? (fun seat => seat.isNone) with
  | some r => ⟨t.seats.eraseIdx r⟩
  | none => t

/-- The adjacency repair of one pair on its (now shared) table: if the
two seats are not ring-adjacent, remove the second person, then place
them into an adjacent empty seat or splice them in right after the first
person and drop the first `null`. -/
def repairAdjacent (tablesC : List Table) (t1 s1 s2b : ℕ) (person2 : Person) :
    List Table :=
  let tbl := tget tablesC t1
  if areNeighborsAt s1 s2b tbl.seats.length then tablesC
  else
    let tblB := setSeat tbl s2b none
    match findAdjacentSeat tblB s1 with
    | some a => tablesC.set t1 (setSeat tblB a (some person2))
    | none => tablesC.set t1 (removeFirstNull (insertSeat tblB (s1 + 1) person2))

/-- The cross-table move of one pair: when the two members sit at
different tables, null out the second member, and place them next to the
first member (adjacent empty seat if any, else splice right after,
removing the first `null` of the vacated table).  Returns the updated
tables and the second member's new seat index. -/
def moveToTable (tables : List Table) (t1 s1 t2 s2 : ℕ) (person2 : Person) :
    List Table × ℕ :=
  if t1 = t2 then (tables, s2)
  else
    let tablesA := tables.set t2 (setSeat (tget tables t2) s2 none)
    match findAdjacentSeat (tget tablesA t1) s1 with
    | some a =>
      (tablesA.set t1 (setSeat (tget tablesA t1) a (some person2)), a)
    | none =>
      let tablesB :=
        tablesA.set t1 (insertSeat (tget tablesA t1) (s1 + 1) person2)
      (tablesB.set t2 (removeFirstNull (tget tablesB t2)), s1 + 1)

/-- One iteration of the `enforceConstantPairsOnTables` loop for the name
pair `nm`: resolve both persons, locate them, move the second one next to
the first across tables if needed, then ensure ring adjacency on the
shared table. -/
def processPair (people : List Person) (tables : List Table)
    (nm : String × String) : List Table :=
  match lookupPersonByName people nm.1, lookupPersonByName people nm.2 with
  | some _, some person2 =>
    match findPersonPos tables nm.1, findPersonPos tables nm.2 with
    | some (t1, s1), some (t2, s2) =>
      let mv := moveToTable tables t1 s1 t2 s2 person2
      repairAdjacent mv.1 t1 s1 mv.2 person2
    | _, _ => tables
  | _, _ => tables

/-- The trailing-null cleanup (`while last seat is null, pop`). -/
def dropTrailingNulls (t : Table) : Table :=
  ⟨(t.seats.reverse.dropWhile (fun seat => seat.isNone)).reverse⟩

/-- `enforceConstantPairsOnTables`, generalized over the name-pair list. -/
def enforceConstantPairsOnTables (pairNames : List (String × String))
    (people : List Person) (constantPairs : List (ℕ × ℕ))
    (tables : List Table) : List Table :=
  if constantPairs.isEmpty then tables
  else (pairNames.foldl (processPair people) tables).map dropTrailingNulls

/-- The per-seat record built by `calculateStatistics`. -/
def seatStat (tableIdx : ℕ) (seats : List (Option Person)) (seatIdx : ℕ)
    (person : Person) : SeatingStatistics :=
  let previous := if seatIdx > 0 then seats.getD (seatIdx - 1) none else none
  let next := if seatIdx + 1 < seats.length then seats.getD (seatIdx + 1) none
    else none
  let previousThemes :=
    match previous with
    | some prev => person.themes ∩ prev.themes
    | none => ∅
  let previousSimilarity : ℚ :=
    match previous with
    | some prev => commonalityDistance person.themes prev.themes
    | none => 0
  let nextThemes :=
    match next with
    | some nx => person.themes ∩ nx.themes
    | none => ∅
  let nextSimilarity : ℚ :=
    match next with
    | some nx => commonalityDistance person.themes nx.themes
    | none => 0
  let commonThemes := previousThemes ∪ nextThemes
  let combinedSimilarity :=
    if seatIdx = 0 then nextSimilarity
    else if seatIdx = seats.length - 1 then previousSimilarity
    else (previousSimilarity + nextSimilarity) / 2
  ⟨person.name, commonThemes, combinedSimilarity,
    decide (0 < commonThemes.card), tableIdx + 1, seatIdx + 1⟩

/-- `calculateStatistics`: one record per occupied seat, in scan order. -/
def calculateStatistics (tables : List Table) : List SeatingStatistics :=
  tables.enum.flatMap (fun te =>
    te.2.seats.enum.filterMap (fun se =>
      match se.2 with
      | some person => some (seatStat te.1 te.2.seats se.1 person)
      | none => none))

/-- `assignToTables`: snake placement, pair repair, statistics.  The JS
`validateConstantPairs` call only logs and changes nothing, so it has no
counterpart here. -/
def assignToTables (res : SeatingResult) (tableSizes : List ℕ) :
    TableAssignment :=
  let constantPairs := findConstantPairs res.people
  let tables0 := snakeTables res.people res.order tableSizes
  let tables1 :=
    enforceConstantPairsOnTables CONSTANT_PAIRS_NAMES res.people constantPairs
      tables0
  ⟨tables1, calculateStatistics tables1⟩

/-! ## The snake placement, characterized -/

/-- Participants consumed by the tables before table `t`:
`2 * ceil(s/2)` per table, capped by what remains. -/
def consumedBefore (sizes : List ℕ) (t : ℕ) : ℕ :=
  ((sizes.take t).map (fun s => ceilHalf s + ceilHalf s)).sum

/-- Modelled from the claim's words: the similarity a seat derives from
the neighbor seat `k` — always the commonality scoring function
(independently of the distance function chosen for optimization, which
`calculateStatistics` does not even receive), and `0` when that seat is
absent or empty. -/
def specNeighborSimilarity (seats : List (Option Person)) (person : Person)
    (k : ℕ) : ℚ :=
  match seats.getD k none with
  | some neighbor => commonalityDistance person.themes neighbor.themes
  | none => 0

/-- The persons seated at a table, in seat order. -/
def occupantsT (t : Table) : List Person := t.seats.filterMap id

/-- The persons seated across all tables. -/
def occupants (tables : List Table) : List Person := tables.flatMap occupantsT

def TablePairAdj (seats : List (Option Person)) (p q : Person) : Prop :=
  ∃ s1 s2, seats[s1]? = some (some p) ∧ seats[s2]? = some (some q) ∧
    areNeighborsAt s1 s2 seats.length = true

def SeatedAdjacent (tables : List Table) (p q : Person) : Prop :=
  ∃ t, t < tables.length ∧ TablePairAdj (tget tables t).seats p q

section SanityChecks

example : commonalityDistance {"a", "b"} {"b", "c"} = 3 / 4 := by
  have h : ({"a", "b"} ∩ {"b", "c"} : Finset String).card = 1 := by decide
  rw [commonalityDistance, h]; norm_num

example : avgDistance ∅ ∅ = 1 := by simp [avgDistance]

end SanityChecks

/-! ## General list helpers -/

theorem findIdx?_some_lt_length {α : Type} {p : α → Bool} {l : List α} {i : ℕ}
    (h : l.findIdx? p = some i) : i < l.length := by
  induction l generalizing i with
  | nil => simp [List.findIdx?_nil] at h
  | cons a t ih =>
    rw [List.findIdx?_cons] at h
    by_cases hp : p a
    · simp [hp] at h
      simp [← h]
    · simp [hp] at h
      obtain ⟨j, hj, rfl⟩ := h
      have := ih hj
      simp only [List.length_cons]
      omega

theorem findIdx?_some_get {α : Type} {p : α → Bool} {l : List α} {i : ℕ}
    (h : l.findIdx? p = some i) : ∃ a, l[i]? = some a ∧ p a = true := by
  induction l generalizing i with
  | nil => simp [List.findIdx?_nil] at h
  | cons a t ih =>
    rw [List.findIdx?_cons] at h
    by_cases hp : p a
    · simp [hp] at h
      exact ⟨a, by simp [← h], hp⟩
    · simp [hp] at h
      obtain ⟨j, hj, rfl⟩ := h
      obtain ⟨b, hb, hpb⟩ := ih hj
      exact ⟨b, by simpa using hb, hpb⟩

theorem findIdx?_isSome_of_mem {α : Type} {p : α → Bool} {l : List α} {a : α}
    (ha : a ∈ l) (hp : p a = true) : (l.findIdx? p).isSome := by
  rcases h : l.findIdx? p with _ | i
  · rw [List.findIdx?_eq_none_iff] at h
    rw [h a ha] at hp
    exact absurd hp (by simp)
  · simp

/-- A `Nodup` list of naturals below `n` with length `n` is a permutation
of `range n`. -/
theorem perm_range_of_nodup {l : List ℕ} {n : ℕ} (hnd : l.Nodup)
    (hlt : ∀ x ∈ l, x < n) (hlen : l.length = n) : l.Perm (List.range n) := by
  apply List.perm_of_nodup_nodup_toFinset_eq hnd (List.nodup_range n)
  have hr : (List.range n).toFinset = Finset.range n := by ext x; simp
  rw [hr]
  apply Finset.eq_of_subset_of_card_le
  · intro x hx
    simp only [List.mem_toFinset] at hx
    simpa using hlt x hx
  · rw [Finset.card_range, List.card_toFinset, List.dedup_eq_self.2 hnd, hlen]

/-! ## Permutation facts for the route pipeline -/

theorem reverseSegment_perm (route : List ℕ) (i j : ℕ) (hij : i ≤ j) :
    (reverseSegment route i j).Perm route := by
  unfold reverseSegment
  conv_rhs => rw [← List.take_append_drop i route]
  rw [List.append_assoc]
  refine List.Perm.append_left _ ?_
  have hdd : (route.drop i).drop (j - i + 1) = route.drop (j + 1) := by
    rw [List.drop_drop]
    congr 1
    omega
  conv_rhs => rw [← List.take_append_drop (j - i + 1) (route.drop i), hdd]
  exact List.Perm.append_right _ (List.reverse_perm _)

/-- Removing the element at a position is, up to permutation, removing
one copy of that element. -/
theorem cons_eraseIdx_perm {α : Type} {l : List α} {pos : ℕ} {a : α}
    (h : l[pos]? = some a) : l.Perm (a :: l.eraseIdx pos) := by
  induction l generalizing pos with
  | nil => simp at h
  | cons b t ih =>
    cases pos with
    | zero =>
      simp only [List.getElem?_cons_zero, Option.some.injEq] at h
      subst h
      simp [List.eraseIdx]
    | succ p =>
      simp only [List.getElem?_cons_succ] at h
      have hp := ih h
      have he : (b :: t).eraseIdx (p + 1) = b :: t.eraseIdx p := rfl
      rw [he]
      exact (hp.cons b).trans (List.Perm.swap a b _)

/-- Splicing an element in at any valid position is, up to permutation,
consing it. -/
theorem insertIdx_perm_cons {α : Type} (l : List α) (k : ℕ) (a : α)
    (hk : k ≤ l.length) : (l.insertIdx k a).Perm (a :: l) := by
  induction l generalizing k with
  | nil =>
    cases k with
    | zero => simp
    | succ p => exact absurd hk (by simp)
  | cons b t ih =>
    cases k with
    | zero => simp
    | succ p =>
      simp only [List.insertIdx_succ_cons]
      have hp := ih p (by simpa using hk)
      exact (hp.cons b).trans (List.Perm.swap a b _)

/-! ## The nearest-neighbor scan -/

theorem scanMinStep_isSome {ok : ℕ → Bool} {d : ℕ → ℚ} {best : Option (ℕ × ℚ)}
    (h : best.isSome) (j : ℕ) : (scanMinStep ok d best j).isSome := by
  rcases best with _ | bd
  · simp at h
  · simp only [scanMinStep]
    split <;> simp

theorem foldl_scanMinStep_none {ok : ℕ → Bool} {d : ℕ → ℚ} {l : List ℕ}
    {acc : Option (ℕ × ℚ)} (h : l.foldl (scanMinStep ok d) acc = none) :
    acc = none ∧ ∀ j ∈ l, ok j = false := by
  induction l generalizing acc with
  | nil => simpa using h
  | cons a t ih =>
    rw [List.foldl_cons] at h
    obtain ⟨hstep, hrest⟩ := ih h
    have hacc : acc = none ∧ ok a = false := by
      rcases acc with _ | bd
      · refine ⟨rfl, ?_⟩
        by_cases hok : ok a
        · simp [scanMinStep, hok] at hstep
        · simpa using hok
      · exfalso
        have hs := @scanMinStep_isSome ok d (some bd) (by simp) a
        rw [hstep] at hs
        simp at hs
    refine ⟨hacc.1, ?_⟩
    intro j hj
    rcases List.mem_cons.mp hj with rfl | hj
    · exact hacc.2
    · exact hrest j hj

theorem foldl_scanMinStep_some {ok : ℕ → Bool} {d : ℕ → ℚ} {l : List ℕ}
    {acc : Option (ℕ × ℚ)} {bd : ℕ × ℚ}
    (h : l.foldl (scanMinStep ok d) acc = some bd) :
    acc = some bd ∨ (bd.1 ∈ l ∧ ok bd.1 = true) := by
  induction l generalizing acc with
  | nil => exact Or.inl (by simpa using h)
  | cons a t ih =>
    rw [List.foldl_cons] at h
    rcases ih h with hstep | hmem
    · rcases acc with _ | bd0
      · simp only [scanMinStep] at hstep
        split at hstep
        · injection hstep with hstep
          right
          rw [← hstep]
          rename_i hok
          exact ⟨List.mem_cons_self a t, hok⟩
        · exact absurd hstep (by simp)
      · simp only [scanMinStep] at hstep
        split at hstep
        · injection hstep with hstep
          right
          rw [← hstep]
          rename_i hc
          exact ⟨List.mem_cons_self a t, (Bool.and_eq_true _ _ |>.mp hc).1⟩
        · exact Or.inl hstep
    · exact Or.inr ⟨List.mem_cons_of_mem a hmem.1, hmem.2⟩

theorem scanMin_eq_none {n : ℕ} {ok : ℕ → Bool} {d : ℕ → ℚ}
    (h : scanMin n ok d = none) : ∀ j < n, ok j = false := by
  intro j hj
  exact (foldl_scanMinStep_none h).2 j (List.mem_range.mpr hj)

theorem scanMin_isSome_of {n : ℕ} {ok : ℕ → Bool} {d : ℕ → ℚ} {j : ℕ}
    (hj : j < n) (hok : ok j = true) : (scanMin n ok d).isSome := by
  rcases h : scanMin n ok d with _ | bd
  · rw [scanMin_eq_none h j hj] at hok
    exact absurd hok (by simp)
  · simp

theorem scanMin_some_spec {n : ℕ} {ok : ℕ → Bool} {d : ℕ → ℚ} {bd : ℕ × ℚ}
    (h : scanMin n ok d = some bd) : bd.1 < n ∧ ok bd.1 = true := by
  rcases foldl_scanMinStep_some h with hacc | hmem
  · exact absurd hacc (by simp)
  · exact ⟨List.mem_range.mp hmem.1, hmem.2⟩

/-! ## The constant-pair map -/

theorem mapGet_lt {pairs : List (ℕ × ℕ)} {n k v : ℕ} (hwf : PairsWF pairs n)
    (h : mapGet pairs k = some v) : v < n := by
  unfold mapGet at h
  rcases hf : pairs.find? (fun e => e.1 == k) with _ | e
  · rw [hf] at h
    simp at h
  · rw [hf] at h
    simp only [Option.map_some'] at h
    injection h with h
    have hmem := List.mem_of_find?_eq_some hf
    have := hwf e hmem
    omega

theorem mapSet_wf {m : List (ℕ × ℕ)} {n k v : ℕ} (hm : PairsWF m n) (hv : v < n) :
    PairsWF (mapSet m k v) n := by
  unfold mapSet
  split
  · intro e he
    simp only [List.mem_map] at he
    obtain ⟨e0, he0, heq⟩ := he
    by_cases hk : (e0.1 == k) = true
    · rw [if_pos hk] at heq
      rw [← heq]
      exact hv
    · rw [if_neg hk] at heq
      rw [← heq]
      exact hm e0 he0
  · intro e he
    rcases List.mem_append.mp he with he0 | he1
    · exact hm e he0
    · simp only [List.mem_singleton] at he1
      rw [he1]
      exact hv

theorem findIndexOfName_lt {people : List Person} {nm : String} {i : ℕ}
    (h : findIndexOfName people nm = some i) : i < people.length :=
  findIdx?_some_lt_length h

theorem findConstantPairsFrom_wf (pairNames : List (String × String))
    (people : List Person) :
    PairsWF (findConstantPairsFrom pairNames people) people.length := by
  unfold findConstantPairsFrom
  generalize hacc : ([] : List (ℕ × ℕ)) = acc
  have hwf : PairsWF acc people.length := by
    rw [← hacc]
    intro e he
    simp at he
  clear hacc
  induction pairNames generalizing acc with
  | nil => simpa using hwf
  | cons nm t ih =>
    rw [List.foldl_cons]
    apply ih
    rcases h1 : findIndexOfName people nm.1 with _ | i1
    · simpa using hwf
    · rcases h2 : findIndexOfName people nm.2 with _ | i2
      · simpa using hwf
      · simp only []
        exact mapSet_wf (mapSet_wf hwf (findIndexOfName_lt h2)) (findIndexOfName_lt h1)

theorem findConstantPairs_wf (people : List Person) :
    PairsWF (findConstantPairs people) people.length :=
  findConstantPairsFrom_wf CONSTANT_PAIRS_NAMES people

/-! ## `chooseNext` always finds a fresh in-range index -/

theorem exists_unvisited {route : List ℕ} {n : ℕ} (hnd : route.Nodup)
    (hlen : route.length < n) :
    ∃ j, j < n ∧ route.contains j = false := by
  by_contra hc
  push_neg at hc
  have hsub : Finset.range n ⊆ route.toFinset := by
    intro j hj
    simp only [Finset.mem_range] at hj
    have hj2 := hc j hj
    rw [List.mem_toFinset]
    rcases Bool.eq_false_or_eq_true (route.contains j) with h | h
    · exact List.elem_iff.mp h
    · exact absurd h hj2
  have hcard := Finset.card_le_card hsub
  rw [Finset.card_range, List.card_toFinset, List.dedup_eq_self.2 hnd] at hcard
  omega

theorem scanOrFallback_spec {distMatrix : ℕ → ℕ → ℚ} {people : List Person}
    {n : ℕ} {route : List ℕ} {current next : ℕ}
    (h : scanOrFallback distMatrix people n route current = some next) :
    next < n ∧ route.contains next = false := by
  unfold scanOrFallback at h
  rcases hs2 : scanMin n
      (fun j => !(route.contains j) &&
        hasCommonThemes (pget people current) (pget people j))
      (fun j => distMatrix current j) with _ | bd
  all_goals rw [hs2] at h
  case some =>
    injection h with h
    obtain ⟨hlt, hok⟩ := scanMin_some_spec hs2
    rw [← h]
    refine ⟨hlt, ?_⟩
    have := (Bool.and_eq_true _ _ |>.mp hok).1
    simpa using this
  case none =>
    rcases hs3 : scanMin n (fun j => !(route.contains j))
        (fun j => distMatrix current j) with _ | bd
    all_goals rw [hs3] at h
    case some =>
      injection h with h
      obtain ⟨hlt, hok⟩ := scanMin_some_spec hs3
      rw [← h]
      exact ⟨hlt, by simpa using hok⟩
    case none =>
      have hmem := List.mem_of_find?_eq_some h
      have hpred := List.find?_some h
      exact ⟨List.mem_range.mp hmem, by simpa using hpred⟩

theorem scanOrFallback_isSome {distMatrix : ℕ → ℕ → ℚ} {people : List Person}
    {n : ℕ} {route : List ℕ} {current : ℕ}
    (hex : ∃ j, j < n ∧ route.contains j = false) :
    (scanOrFallback distMatrix people n route current).isSome := by
  obtain ⟨j, hj, hcont⟩ := hex
  unfold scanOrFallback
  rcases hs2 : scanMin n
      (fun j => !(route.contains j) &&
        hasCommonThemes (pget people current) (pget people j))
      (fun j => distMatrix current j) with _ | bd
  · rcases hs3 : scanMin n (fun j => !(route.contains j))
        (fun j => distMatrix current j) with _ | bd
    · have := scanMin_eq_none hs3 j hj
      rw [hcont] at this
      exact absurd this (by simp)
    · simp
  · simp

theorem chooseNext_spec {distMatrix : ℕ → ℕ → ℚ} {people : List Person}
    {constantPairs : List (ℕ × ℕ)} {n : ℕ} {route : List ℕ} {current next : ℕ}
    (hwf : PairsWF constantPairs n)
    (h : chooseNext distMatrix people constantPairs n route current = some next) :
    next < n ∧ route.contains next = false := by
  unfold chooseNext at h
  rcases hmg : mapGet constantPairs current with _ | pairIdx
  all_goals simp only [hmg] at h
  case none => exact scanOrFallback_spec h
  case some =>
    by_cases hcont : route.contains pairIdx
    · rw [if_pos hcont] at h
      exact scanOrFallback_spec h
    · rw [if_neg hcont] at h
      injection h with h
      rw [← h]
      refine ⟨mapGet_lt hwf hmg, ?_⟩
      simpa using hcont

theorem chooseNext_isSome {distMatrix : ℕ → ℕ → ℚ} {people : List Person}
    {constantPairs : List (ℕ × ℕ)} {n : ℕ} {route : List ℕ} {current : ℕ}
    (hex : ∃ j, j < n ∧ route.contains j = false) :
    (chooseNext distMatrix people constantPairs n route current).isSome := by
  unfold chooseNext
  rcases hmg : mapGet constantPairs current with _ | pairIdx
  all_goals simp only [hmg]
  case none => exact scanOrFallback_isSome hex
  case some =>
    by_cases hcont : route.contains pairIdx
    · rw [if_pos hcont]
      exact scanOrFallback_isSome hex
    · rw [if_neg hcont]
      simp

/-! ## The nearest-neighbor route is a permutation -/

theorem nearestNeighborAux_spec (distMatrix : ℕ → ℕ → ℚ) (people : List Person)
    (constantPairs : List (ℕ × ℕ)) (n : ℕ) (hwf : PairsWF constantPairs n)
    (fuel : ℕ) :
    ∀ (route : List ℕ) (current : ℕ), route.Nodup → (∀ x ∈ route, x < n) →
      route.length ≤ n →
      (nearestNeighborAux distMatrix people constantPairs n fuel route current).Nodup ∧
      (∀ x ∈ nearestNeighborAux distMatrix people constantPairs n fuel route current,
        x < n) ∧
      (n ≤ fuel + route.length →
        (nearestNeighborAux distMatrix people constantPairs n fuel route current).length
          = n) := by
  induction fuel with
  | zero =>
    intro route current h1 h2 h3
    refine ⟨h1, h2, fun h => ?_⟩
    simp only [nearestNeighborAux]
    omega
  | succ fuel ih =>
    intro route current h1 h2 h3
    by_cases hlen : route.length < n
    · have hex := exists_unvisited h1 hlen
      rcases hch : chooseNext distMatrix people constantPairs n route current
          with _ | next
      · have hs := @chooseNext_isSome distMatrix people constantPairs n
          route current hex
        rw [hch] at hs
        exact absurd hs (by simp)
      · obtain ⟨hn1, hn2⟩ := chooseNext_spec hwf hch
        have hnotmem : next ∉ route := by
          intro hmem
          have hcont2 : route.contains next = true := List.elem_iff.mpr hmem
          rw [hcont2] at hn2
          exact absurd hn2 (by simp)
        have h1' : (route ++ [next]).Nodup := by
          rw [List.nodup_append]
          exact ⟨h1, List.nodup_singleton next, by simpa using hnotmem⟩
        have h2' : ∀ x ∈ route ++ [next], x < n := by
          intro x hx
          rcases List.mem_append.mp hx with hx | hx
          · exact h2 x hx
          · simp only [List.mem_singleton] at hx
            rw [hx]
            exact hn1
        have h3' : (route ++ [next]).length ≤ n := by
          simp only [List.length_append, List.length_singleton]
          omega
        have hrec := ih (route ++ [next]) next h1' h2' h3'
        have heq : nearestNeighborAux distMatrix people constantPairs n (fuel + 1)
            route current
            = nearestNeighborAux distMatrix people constantPairs n fuel
              (route ++ [next]) next := by
          simp only [nearestNeighborAux, if_pos hlen, hch]
        rw [heq]
        refine ⟨hrec.1, hrec.2.1, fun h => hrec.2.2 ?_⟩
        simp only [List.length_append, List.length_singleton]
        omega
    · have heq : nearestNeighborAux distMatrix people constantPairs n (fuel + 1)
          route current = route := by
        simp only [nearestNeighborAux, if_neg hlen]
      rw [heq]
      exact ⟨h1, h2, fun _ => by omega⟩

/-- The constructed nearest-neighbor route is a permutation of
`0 .. n-1` whenever the start index is in range and the pair map is
well-formed. -/
theorem nearestNeighbor_perm {distMatrix : ℕ → ℕ → ℚ} {people : List Person}
    {constantPairs : List (ℕ × ℕ)} {n startIdx : ℕ}
    (hwf : PairsWF constantPairs n) (hstart : startIdx < n) :
    (nearestNeighborWithCommonThemes distMatrix people constantPairs n
      startIdx).Perm (List.range n) := by
  have h := nearestNeighborAux_spec distMatrix people constantPairs n hwf n
    [startIdx] startIdx (List.nodup_singleton _) (by simpa using hstart)
    (by simp; omega)
  exact perm_range_of_nodup h.1 h.2.1 (h.2.2 (by simp))

/-! ## 2-opt and pair enforcement preserve the permutation -/

theorem findImprovement_bounds {distMatrix : ℕ → ℕ → ℚ} {people : List Person}
    {constantPairs : List (ℕ × ℕ)} {route : List ℕ} {ij : ℕ × ℕ}
    (h : findImprovement distMatrix people constantPairs route = some ij) :
    1 ≤ ij.1 ∧ ij.1 < route.length - 2 ∧ ij.1 + 1 ≤ ij.2 ∧
      ij.2 < route.length - 1 := by
  have hmem := List.mem_of_find?_eq_some h
  unfold candidatePairs at hmem
  simp only [List.mem_flatMap, List.mem_map, List.mem_filter, List.mem_range,
    Bool.and_eq_true, decide_eq_true_eq] at hmem
  obtain ⟨i, ⟨_, hi1, hi2⟩, j, ⟨⟨_, hj1, hj2⟩, hij⟩⟩ := hmem
  rw [← hij]
  exact ⟨hi1, hi2, hj1, hj2⟩

theorem twoOptLoop_perm (distMatrix : ℕ → ℕ → ℚ) (people : List Person)
    (constantPairs : List (ℕ × ℕ)) (fuel : ℕ) :
    ∀ route : List ℕ,
      (twoOptLoop distMatrix people constantPairs fuel route).Perm route := by
  induction fuel with
  | zero => intro route; simp only [twoOptLoop]; exact List.Perm.refl _
  | succ fuel ih =>
    intro route
    rcases hfi : findImprovement distMatrix people constantPairs route with _ | ij
    · simp only [twoOptLoop, hfi]
      exact List.Perm.refl _
    · have heq : twoOptLoop distMatrix people constantPairs (fuel + 1) route
          = twoOptLoop distMatrix people constantPairs fuel
            (reverseSegment route ij.1 ij.2) := by
        simp only [twoOptLoop, hfi]
      rw [heq]
      have hb := findImprovement_bounds hfi
      exact (ih _).trans (reverseSegment_perm route ij.1 ij.2 (by omega))

theorem twoOpt_perm (distMatrix : ℕ → ℕ → ℚ) (people : List Person)
    (constantPairs : List (ℕ × ℕ)) (fuel : ℕ) (route : List ℕ) :
    (twoOpt distMatrix people constantPairs fuel route).Perm route :=
  twoOptLoop_perm distMatrix people constantPairs fuel route

theorem enforcePairStep_perm (route : List ℕ) (e : ℕ × ℕ) :
    (enforcePairStep route e).Perm route := by
  unfold enforcePairStep
  rcases h1 : route.findIdx? (fun x => x == e.1) with _ | pos1
  · exact List.Perm.refl _
  · rcases h2 : route.findIdx? (fun x => x == e.2) with _ | pos2
    · exact List.Perm.refl _
    · dsimp only
      by_cases hn : areNeighborsAt pos1 pos2 route.length
      · rw [if_pos hn]
      · rw [if_neg hn]
        by_cases hlt : pos1 < pos2
        · rw [if_pos hlt]
          obtain ⟨a, ha, hpa⟩ := findIdx?_some_get h2
          have hae : a = e.2 := by simpa using hpa
          rw [hae] at ha
          have hperm := cons_eraseIdx_perm ha
          rcases h3 : (route.eraseIdx pos2).findIdx? (fun x => x == e.1)
              with _ | newPos1
          · exact ((insertIdx_perm_cons _ 0 e.2 (by simp)).trans hperm.symm)
          · have hlen : newPos1 < (route.eraseIdx pos2).length :=
              findIdx?_some_lt_length h3
            exact ((insertIdx_perm_cons _ (newPos1 + 1) e.2 (by omega)).trans
              hperm.symm)
        · rw [if_neg hlt]
          obtain ⟨a, ha, hpa⟩ := findIdx?_some_get h1
          have hae : a = e.1 := by simpa using hpa
          rw [hae] at ha
          have hperm := cons_eraseIdx_perm ha
          rcases h3 : (route.eraseIdx pos1).findIdx? (fun x => x == e.2)
              with _ | newPos2
          · exact ((insertIdx_perm_cons _ 0 e.1 (by simp)).trans hperm.symm)
          · have hlen : newPos2 < (route.eraseIdx pos1).length :=
              findIdx?_some_lt_length h3
            exact ((insertIdx_perm_cons _ (newPos2 + 1) e.1 (by omega)).trans
              hperm.symm)

theorem enforceConstantPairs_perm (route : List ℕ) (constantPairs : List (ℕ × ℕ)) :
    (enforceConstantPairs route constantPairs).Perm route := by
  unfold enforceConstantPairs
  split
  · exact List.Perm.refl _
  · clear *-
    induction constantPairs generalizing route with
    | nil => exact List.Perm.refl _
    | cons e t ih =>
      rw [List.foldl_cons]
      exact (ih (enforcePairStep route e)).trans (enforcePairStep_perm route e)

/-! ## Multi-start driver facts -/

theorem bestStep_isSome {people : List Person} {df : DistanceFunction}
    {mode : OptimizationMode} {fuel : ℕ}
    {best : Option (List ℕ) × WithTop ℚ} {s : ℕ} (h : best.1.isSome) :
    (bestStep people df mode fuel best s).1.isSome := by
  unfold bestStep
  split
  · simp
  · exact h

theorem foldl_bestStep_isSome {people : List Person} {df : DistanceFunction}
    {mode : OptimizationMode} {fuel : ℕ} (l : List ℕ)
    (acc : Option (List ℕ) × WithTop ℚ) (h : acc.1.isSome) :
    ((l.foldl (bestStep people df mode fuel) acc)).1.isSome := by
  induction l generalizing acc with
  | nil => simpa using h
  | cons a t ih =>
    rw [List.foldl_cons]
    exact ih _ (bestStep_isSome h)

theorem optimizeSeatingRaw_isSome {people : List Person} {starts : List ℕ}
    {df : DistanceFunction} {mode : OptimizationMode} {fuel : ℕ}
    (h : starts ≠ []) :
    (optimizeSeatingRaw people starts df mode fuel).1.isSome := by
  rcases starts with _ | ⟨s, t⟩
  · exact absurd rfl h
  · unfold optimizeSeatingRaw
    rw [List.foldl_cons]
    apply foldl_bestStep_isSome
    unfold bestStep
    rw [if_pos]
    · simp
    · exact WithTop.coe_lt_top _

theorem foldl_bestStep_le {people : List Person} {df : DistanceFunction}
    {mode : OptimizationMode} {fuel : ℕ} (l : List ℕ)
    (acc : Option (List ℕ) × WithTop ℚ) :
    (l.foldl (bestStep people df mode fuel) acc).2 ≤ acc.2 ∧
      ∀ s ∈ l, (l.foldl (bestStep people df mode fuel) acc).2 ≤
        (attemptScoreOf people df mode fuel s : WithTop ℚ) := by
  induction l generalizing acc with
  | nil => exact ⟨le_refl _, by simp⟩
  | cons a t ih =>
    rw [List.foldl_cons]
    obtain ⟨h1, h2⟩ := ih (bestStep people df mode fuel acc a)
    have hstep_le : (bestStep people df mode fuel acc a).2 ≤ acc.2 := by
      unfold bestStep
      split
      · exact le_of_lt (by assumption)
      · exact le_refl _
    have hstep_score : (bestStep people df mode fuel acc a).2 ≤
        (attemptScoreOf people df mode fuel a : WithTop ℚ) := by
      unfold bestStep
      split
      · exact le_refl _
      · rename_i hc
        exact le_of_not_lt hc
    refine ⟨h1.trans hstep_le, ?_⟩
    intro s hs
    rcases List.mem_cons.mp hs with rfl | hs
    · exact h1.trans hstep_score
    · exact h2 s hs

theorem foldl_bestStep_attained {people : List Person} {df : DistanceFunction}
    {mode : OptimizationMode} {fuel : ℕ} (l : List ℕ)
    (acc : Option (List ℕ) × WithTop ℚ) :
    (l.foldl (bestStep people df mode fuel) acc).2 = acc.2 ∨
      ∃ s ∈ l, (l.foldl (bestStep people df mode fuel) acc).2 =
        (attemptScoreOf people df mode fuel s : WithTop ℚ) := by
  induction l generalizing acc with
  | nil => exact Or.inl rfl
  | cons a t ih =>
    rw [List.foldl_cons]
    rcases ih (bestStep people df mode fuel acc a) with h | ⟨s, hs, h⟩
    · rw [h]
      unfold bestStep
      split
      · exact Or.inr ⟨a, List.mem_cons_self a t, rfl⟩
      · exact Or.inl rfl
    · exact Or.inr ⟨s, List.mem_cons_of_mem a hs, h⟩

theorem foldl_bestStep_order {people : List Person} {df : DistanceFunction}
    {mode : OptimizationMode} {fuel : ℕ} (P : List ℕ → Prop) (l : List ℕ)
    (acc : Option (List ℕ) × WithTop ℚ)
    (hacc : ∀ o, acc.1 = some o → P o)
    (hl : ∀ s ∈ l, P (runAttemptOf people df fuel s)) :
    ∀ o, (l.foldl (bestStep people df mode fuel) acc).1 = some o → P o := by
  induction l generalizing acc with
  | nil => simpa using hacc
  | cons a t ih =>
    rw [List.foldl_cons]
    apply ih
    · intro o ho
      unfold bestStep at ho
      split at ho
      · simp only [Option.some.injEq] at ho
        rw [← ho]
        exact hl a (List.mem_cons_self a t)
      · exact hacc o ho
    · intro s hs
      exact hl s (List.mem_cons_of_mem a hs)

/-- Every attempt order is a permutation of `0 .. n-1`. -/
theorem runAttemptOf_perm {people : List Person} {df : DistanceFunction}
    {fuel : ℕ} {s : ℕ} (hs : s < people.length) :
    (runAttemptOf people df fuel s).Perm (List.range people.length) := by
  unfold runAttemptOf runAttempt
  have hwf := findConstantPairs_wf people
  have h1 := @nearestNeighbor_perm
    (createDistanceMatrix people (getDistanceFunction df)
      (findConstantPairs people))
    people (findConstantPairs people) people.length s hwf hs
  have h2 := twoOpt_perm
    (createDistanceMatrix people (getDistanceFunction df)
      (findConstantPairs people)) people (findConstantPairs people) fuel
    (nearestNeighborWithCommonThemes
      (createDistanceMatrix people (getDistanceFunction df)
        (findConstantPairs people)) people (findConstantPairs people)
      people.length s)
  have h3 := enforceConstantPairs_perm
    (twoOpt
      (createDistanceMatrix people (getDistanceFunction df)
        (findConstantPairs people)) people (findConstantPairs people) fuel
      (nearestNeighborWithCommonThemes
        (createDistanceMatrix people (getDistanceFunction df)
          (findConstantPairs people)) people (findConstantPairs people)
        people.length s))
    (findConstantPairs people)
  exact h3.trans (h2.trans h1)

theorem optimizeSeating_score_eq_raw (people : List Person) (starts : List ℕ)
    (df : DistanceFunction) (mode : OptimizationMode) (fuel : ℕ) :
    (optimizeSeating people starts df mode fuel).score =
      (optimizeSeatingRaw people starts df mode fuel).2 := rfl

theorem optimizeSeating_order_eq (people : List Person) (starts : List ℕ)
    (df : DistanceFunction) (mode : OptimizationMode) (fuel : ℕ) {o : List ℕ}
    (h : (optimizeSeatingRaw people starts df mode fuel).1 = some o) :
    (optimizeSeating people starts df mode fuel).order =
      enforceConstantPairs o (findConstantPairs people) := by
  unfold optimizeSeating
  simp only [h]

/-- C1: for every non-empty participant list, every attempts list and every
in-range sequence of start indices, the order returned by `optimizeSeating`
is a permutation of all participant indices `0 .. n-1`. -/
theorem optimizeSeating_order_is_permutation (people : List Person)
    (starts : List ℕ) (df : DistanceFunction) (mode : OptimizationMode)
    (fuel : ℕ) (_hpeople : people ≠ []) (hstarts : starts ≠ [])
    (hs : ∀ s ∈ starts, s < people.length) :
    (optimizeSeating people starts df mode fuel).order.Perm
      (List.range people.length) := by
  have hsome := @optimizeSeatingRaw_isSome people starts df mode fuel hstarts
  rcases ho : (optimizeSeatingRaw people starts df mode fuel).1 with _ | o
  · rw [ho] at hsome
    exact absurd hsome (by simp)
  · have hperm : o.Perm (List.range people.length) := by
      refine @foldl_bestStep_order people df mode fuel
        (fun r => r.Perm (List.range people.length)) starts (none, ⊤) ?_ ?_ o ho
      · intro o' ho'
        exact absurd ho' (by simp)
      · intro s hsmem
        exact runAttemptOf_perm (hs s hsmem)
    rw [optimizeSeating_order_eq people starts df mode fuel ho]
    exact (enforceConstantPairs_perm o (findConstantPairs people)).trans hperm

/-- C1 witness: a concrete 2-person instance. -/
theorem optimizeSeating_order_is_permutation_witness :
    ([⟨"x", {"a"}⟩, ⟨"y", {"a"}⟩] : List Person) ≠ [] ∧
    ([0, 1] : List ℕ) ≠ [] ∧
    (∀ s ∈ ([0, 1] : List ℕ),
      s < ([⟨"x", {"a"}⟩, ⟨"y", {"a"}⟩] : List Person).length) ∧
    (optimizeSeating [⟨"x", {"a"}⟩, ⟨"y", {"a"}⟩] [0, 1]
      DistanceFunction.commonality OptimizationMode.poor_connections 3).order.Perm
      (List.range 2) :=
  ⟨by simp, by simp, by decide,
    optimizeSeating_order_is_permutation _ _ _ _ 3 (by simp) (by simp) (by decide)⟩

/-- C6: the score returned by `optimizeSeating` equals the minimum of the
per-attempt scores: it is `≤` every attempt's score, and is attained by
some attempt. -/
theorem optimizeSeating_score_is_min (people : List Person) (starts : List ℕ)
    (df : DistanceFunction) (mode : OptimizationMode) (fuel : ℕ)
    (hstarts : starts ≠ []) :
    (∀ s ∈ starts, (optimizeSeating people starts df mode fuel).score ≤
      (attemptScoreOf people df mode fuel s : WithTop ℚ)) ∧
    ∃ s ∈ starts, (optimizeSeating people starts df mode fuel).score =
      (attemptScoreOf people df mode fuel s : WithTop ℚ) := by
  rw [optimizeSeating_score_eq_raw]
  have hle := @foldl_bestStep_le people df mode fuel starts (none, ⊤)
  refine ⟨hle.2, ?_⟩
  rcases starts with _ | ⟨s0, t⟩
  · exact absurd rfl hstarts
  · rcases @foldl_bestStep_attained people df mode fuel (s0 :: t) (none, ⊤)
        with htop | hex
    · exfalso
      have h0 := hle.2 s0 (List.mem_cons_self s0 t)
      rw [htop] at h0
      exact absurd h0 (WithTop.coe_lt_top _).not_le
    · exact hex

/-- C6 witness. -/
theorem optimizeSeating_score_is_min_witness :
    ([0] : List ℕ) ≠ [] ∧
    ((∀ s ∈ ([0] : List ℕ),
      (optimizeSeating [⟨"x", {"a"}⟩] [0] DistanceFunction.commonality
        OptimizationMode.poor_connections 2).score ≤
      (attemptScoreOf [⟨"x", {"a"}⟩] DistanceFunction.commonality
        OptimizationMode.poor_connections 2 s : WithTop ℚ)) ∧
    ∃ s ∈ ([0] : List ℕ),
      (optimizeSeating [⟨"x", {"a"}⟩] [0] DistanceFunction.commonality
        OptimizationMode.poor_connections 2).score =
      (attemptScoreOf [⟨"x", {"a"}⟩] DistanceFunction.commonality
        OptimizationMode.poor_connections 2 s : WithTop ℚ)) :=
  ⟨by simp,
    optimizeSeating_score_is_min [⟨"x", {"a"}⟩] [0] DistanceFunction.commonality
      OptimizationMode.poor_connections 2 (by simp)⟩

/-- C10: with at least one participant and at least one attempt, the first
attempt's score beats the initial `Infinity`, so the best overall order is
non-null (the JS non-null assertion cannot fail) and the best score is
finite. -/
theorem optimizeSeating_returns_result (people : List Person) (starts : List ℕ)
    (df : DistanceFunction) (mode : OptimizationMode) (fuel : ℕ)
    (_hpeople : people ≠ []) (hstarts : starts ≠ []) :
    (optimizeSeatingRaw people starts df mode fuel).1.isSome ∧
      (optimizeSeatingRaw people starts df mode fuel).2 < ⊤ := by
  refine ⟨optimizeSeatingRaw_isSome hstarts, ?_⟩
  rcases starts with _ | ⟨s0, t⟩
  · exact absurd rfl hstarts
  · have hle := (@foldl_bestStep_le people df mode fuel (s0 :: t)
      (none, ⊤)).2 s0 (List.mem_cons_self s0 t)
    exact lt_of_le_of_lt hle (WithTop.coe_lt_top _)

/-- C10 witness. -/
theorem optimizeSeating_returns_result_witness :
    ([⟨"x", {"a"}⟩] : List Person) ≠ [] ∧ ([0] : List ℕ) ≠ [] ∧
    ((optimizeSeatingRaw [⟨"x", {"a"}⟩] [0] DistanceFunction.commonality
        OptimizationMode.poor_connections 2).1.isSome ∧
      (optimizeSeatingRaw [⟨"x", {"a"}⟩] [0] DistanceFunction.commonality
        OptimizationMode.poor_connections 2).2 < ⊤) :=
  ⟨by simp, by simp,
    optimizeSeating_returns_result [⟨"x", {"a"}⟩] [0]
      DistanceFunction.commonality OptimizationMode.poor_connections 2
      (by simp) (by simp)⟩

/-- C8 (code behavior at the empty input): with an empty participant list
and one attempt (the JS draws `startIdx = Math.floor(Math.random()*0) = 0`),
`optimizeSeating` does not fail: it returns a normal-looking result whose
order is `[0]` — an index of a participant that does not exist — with the
finite score `1`. -/
theorem optimizeSeating_empty_input_returns_result :
    optimizeSeating [] [0] DistanceFunction.commonality
      OptimizationMode.poor_connections 1
      = ⟨[0], ((1 : ℚ) : WithTop ℚ), []⟩ := rfl

/-! ## 2-opt never increases the path cost of a symmetric matrix -/

theorem calculateTotalCost_append (d : ℕ → ℕ → ℚ) (X Y : List ℕ) :
    calculateTotalCost (X ++ Y) d
      = calculateTotalCost X d + joinCost d X Y + calculateTotalCost Y d := by
  induction X with
  | nil => simp [calculateTotalCost, joinCost]
  | cons a X ih =>
    cases X with
    | nil =>
      cases Y with
      | nil => simp [calculateTotalCost, joinCost]
      | cons y Ys =>
        show calculateTotalCost (a :: y :: Ys) d = _
        rw [calculateTotalCost]
        simp [calculateTotalCost, joinCost]
    | cons b X2 =>
      show calculateTotalCost (a :: b :: (X2 ++ Y)) d = _
      rw [calculateTotalCost]
      have hX : (b :: X2) ++ Y = b :: (X2 ++ Y) := rfl
      rw [← hX, ih]
      have hj : joinCost d (a :: b :: X2) Y = joinCost d (b :: X2) Y := by
        simp [joinCost]
      rw [hj]
      have hc : calculateTotalCost (a :: b :: X2) d
          = d a b + calculateTotalCost (b :: X2) d := rfl
      rw [hc]
      ring

theorem calculateTotalCost_reverse (d : ℕ → ℕ → ℚ)
    (hsym : ∀ a b, d a b = d b a) (l : List ℕ) :
    calculateTotalCost l.reverse d = calculateTotalCost l d := by
  induction l with
  | nil => rfl
  | cons a t ih =>
    cases t with
    | nil => rfl
    | cons b t2 =>
      have hrev : (a :: b :: t2).reverse = (b :: t2).reverse ++ [a] := by
        simp
      rw [hrev, calculateTotalCost_append, ih]
      have hj : joinCost d (b :: t2).reverse [a] = d b a := by
        unfold joinCost
        rw [List.getLast?_reverse]
        rfl
      rw [hj]
      have hc : calculateTotalCost (a :: b :: t2) d
          = d a b + calculateTotalCost (b :: t2) d := rfl
      rw [hc, hsym a b]
      have hone : calculateTotalCost [a] d = 0 := rfl
      rw [hone]
      ring

theorem rget_eq_of_lt {r : List ℕ} {k : ℕ} (h : k < r.length) :
    r[k]? = some (rget r k) := by
  rw [List.getElem?_eq_getElem h]
  unfold rget
  rw [List.getD_eq_getElem _ _ h]

/-- `head?` as an indexed lookup. -/
theorem head?_eq_getElem0 (l : List ℕ) : l.head? = l[0]? := by
  cases l <;> simp

theorem head?_append_of_ne_nil (X Y : List ℕ) (h : X ≠ []) :
    (X ++ Y).head? = X.head? := by
  cases X with
  | nil => exact absurd rfl h
  | cons a t => rfl

/-- Reversing the inner segment `[i..j]` exchanges the `before` boundary
cost for the `after` boundary cost and changes nothing else, provided the
matrix is symmetric. -/
theorem calculateTotalCost_reverseSegment (d : ℕ → ℕ → ℚ)
    (hsym : ∀ a b, d a b = d b a) (r : List ℕ) (i j : ℕ)
    (h1 : 1 ≤ i) (hij : i ≤ j) (hj : j + 1 < r.length) :
    calculateTotalCost (reverseSegment r i j) d + moveBefore d r i j
      = calculateTotalCost r d + moveAfter d r i j := by
  set P := r.take i with hP
  set M := (r.drop i).take (j - i + 1) with hM
  set Q := r.drop (j + 1) with hQ
  have hMlen : M.length = j - i + 1 := by
    rw [hM, List.length_take, List.length_drop]
    omega
  have hPlen : P.length = i := by
    rw [hP, List.length_take]
    omega
  have hMne : M ≠ [] := by
    intro hc
    rw [hc] at hMlen
    simp at hMlen
  have hMrevne : M.reverse ≠ [] := by
    simpa using hMne
  have hsplit : r = P ++ (M ++ Q) := by
    have hgoal : P ++ (M ++ Q) = r := by
      rw [hP, hM, hQ]
      have h2 : List.drop (j + 1) r = List.drop (j - i + 1) (List.drop i r) := by
        rw [List.drop_drop]
        congr 1
        omega
      rw [h2, List.take_append_drop, List.take_append_drop]
    exact hgoal.symm
  have hrs : reverseSegment r i j = P ++ (M.reverse ++ Q) := by
    unfold reverseSegment
    rw [← hP, ← hM, ← hQ, List.append_assoc]
  have hPlast : P.getLast? = some (rget r (i - 1)) := by
    rw [List.getLast?_eq_getElem?, hPlen, hP, List.getElem?_take_of_lt (by omega)]
    exact rget_eq_of_lt (by omega)
  have hMhead : M.head? = some (rget r i) := by
    rw [head?_eq_getElem0, hM, List.getElem?_take_of_lt (by omega),
      List.getElem?_drop]
    exact rget_eq_of_lt (by omega)
  have hMlast : M.getLast? = some (rget r j) := by
    rw [List.getLast?_eq_getElem?, hMlen, hM, List.getElem?_take_of_lt (by omega),
      List.getElem?_drop]
    have hidx : i + (j - i + 1 - 1) = j := by omega
    rw [hidx]
    exact rget_eq_of_lt (by omega)
  have hQhead : Q.head? = some (rget r (j + 1)) := by
    rw [hQ, List.head?_drop]
    exact rget_eq_of_lt (by omega)
  have hcost : calculateTotalCost r d
      = calculateTotalCost P d + joinCost d P M + calculateTotalCost M d
        + joinCost d M Q + calculateTotalCost Q d := by
    conv_lhs => rw [hsplit]
    rw [calculateTotalCost_append, calculateTotalCost_append]
    have hjoin : joinCost d P (M ++ Q) = joinCost d P M := by
      unfold joinCost
      rw [head?_append_of_ne_nil M Q hMne]
    rw [hjoin]
    ring
  have hcost2 : calculateTotalCost (reverseSegment r i j) d
      = calculateTotalCost P d + joinCost d P M.reverse
        + calculateTotalCost M d + joinCost d M.reverse Q
        + calculateTotalCost Q d := by
    rw [hrs, calculateTotalCost_append, calculateTotalCost_append]
    have hjoin : joinCost d P (M.reverse ++ Q) = joinCost d P M.reverse := by
      unfold joinCost
      rw [head?_append_of_ne_nil M.reverse Q hMrevne]
    rw [hjoin, calculateTotalCost_reverse d hsym M]
    ring
  have hj1 : joinCost d P M = d (rget r (i - 1)) (rget r i) := by
    unfold joinCost
    rw [hPlast, hMhead]
  have hj2 : joinCost d M Q = d (rget r j) (rget r (j + 1)) := by
    unfold joinCost
    rw [hMlast, hQhead]
  have hj3 : joinCost d P M.reverse = d (rget r (i - 1)) (rget r j) := by
    unfold joinCost
    rw [hPlast, List.head?_reverse, hMlast]
  have hj4 : joinCost d M.reverse Q = d (rget r i) (rget r (j + 1)) := by
    unfold joinCost
    rw [List.getLast?_reverse, hMhead, hQhead]
  rw [hcost, hcost2, hj1, hj2, hj3, hj4]
  unfold moveBefore moveAfter
  ring

theorem acceptMove_lt {dm : ℕ → ℕ → ℚ} {people : List Person}
    {pairs : List (ℕ × ℕ)} {route : List ℕ} {ij : ℕ × ℕ}
    (h : acceptMove dm people pairs route ij = true) :
    moveAfter dm route ij.1 ij.2 < moveBefore dm route ij.1 ij.2 := by
  unfold acceptMove at h
  split at h
  · exact absurd h (by simp)
  · split at h
    · rename_i hc
      simpa using hc
    · exact absurd h (by simp)

theorem twoOptLoop_cost_le (dm : ℕ → ℕ → ℚ) (hsym : ∀ a b, dm a b = dm b a)
    (people : List Person) (pairs : List (ℕ × ℕ)) :
    ∀ (fuel : ℕ) (route : List ℕ),
      calculateTotalCost (twoOptLoop dm people pairs fuel route) dm ≤
        calculateTotalCost route dm := by
  intro fuel
  induction fuel with
  | zero =>
    intro route
    simp only [twoOptLoop]
    exact le_refl _
  | succ fuel ih =>
    intro route
    rcases hfi : findImprovement dm people pairs route with _ | ij
    · simp only [twoOptLoop, hfi]
      exact le_refl _
    · have hb := findImprovement_bounds hfi
      have hacc : acceptMove dm people pairs route ij = true := List.find?_some hfi
      have hlt := acceptMove_lt hacc
      have hkey := calculateTotalCost_reverseSegment dm hsym route ij.1 ij.2
        (by omega) (by omega) (by omega)
      have hstep : calculateTotalCost (reverseSegment route ij.1 ij.2) dm <
          calculateTotalCost route dm := by linarith
      have heq : twoOptLoop dm people pairs (fuel + 1) route
          = twoOptLoop dm people pairs fuel (reverseSegment route ij.1 ij.2) := by
        simp only [twoOptLoop, hfi]
      rw [heq]
      exact le_of_lt (lt_of_le_of_lt (ih _) hstep)

theorem createDistanceMatrix_symm (people : List Person)
    (distFunc : Finset String → Finset String → ℚ)
    (constantPairs : List (ℕ × ℕ)) (a b : ℕ) :
    createDistanceMatrix people distFunc constantPairs a b
      = createDistanceMatrix people distFunc constantPairs b a := by
  unfold createDistanceMatrix
  rcases eq_or_ne a b with rfl | hne
  · rfl
  · rw [if_neg hne, if_neg (Ne.symm hne), min_comm, max_comm]

/-- C5: `twoOpt` never increases the sum of consecutive-pair matrix
distances along the route, for any matrix built by
`createDistanceMatrix` (such matrices are symmetric by construction) and
any fuel. -/
theorem twoOpt_cost_monotone (people : List Person)
    (distFunc : Finset String → Finset String → ℚ) (cp : List (ℕ × ℕ))
    (people2 : List Person) (cp2 : List (ℕ × ℕ)) (fuel : ℕ) (route : List ℕ) :
    calculateTotalCost
        (twoOpt (createDistanceMatrix people distFunc cp) people2 cp2 fuel route)
        (createDistanceMatrix people distFunc cp) ≤
      calculateTotalCost route (createDistanceMatrix people distFunc cp) :=
  twoOptLoop_cost_le (createDistanceMatrix people distFunc cp)
    (createDistanceMatrix_symm people distFunc cp) people2 cp2 fuel route

/-! ## Constraint-aware 2-opt: rejection and adjacency preservation -/

theorem reverseSegment_length {r : List ℕ} {i j : ℕ} (hij : i ≤ j)
    (hj : j < r.length) : (reverseSegment r i j).length = r.length := by
  unfold reverseSegment
  simp only [List.length_append, List.length_reverse, List.length_take,
    List.length_drop]
  omega

/-- Position map of the segment reversal: inside `[i..j]` a position `k`
moves to its mirror `j - (k - i)`, outside it stays put. -/
theorem reverseSegment_getElem {r : List ℕ} {i j k : ℕ} (hij : i ≤ j)
    (hj : j < r.length) :
    (reverseSegment r i j)[k]? =
      if i ≤ k ∧ k ≤ j then r[j - (k - i)]? else r[k]? := by
  unfold reverseSegment
  have hlp : (r.take i).length = i := by
    rw [List.length_take]
    omega
  have hlm : ((r.drop i).take (j - i + 1)).reverse.length = j - i + 1 := by
    rw [List.length_reverse, List.length_take, List.length_drop]
    omega
  have hlen12 : (r.take i ++ ((r.drop i).take (j - i + 1)).reverse).length
      = j + 1 := by
    rw [List.length_append, hlp, hlm]
    omega
  rw [List.getElem?_append, List.getElem?_append, hlen12, hlp]
  by_cases hk1 : k < i
  · rw [if_pos (show k < j + 1 by omega), if_pos hk1,
      List.getElem?_take_of_lt hk1, if_neg (by omega)]
  · by_cases hk2 : k ≤ j
    · rw [if_pos (show k < j + 1 by omega), if_neg hk1,
        if_pos (show i ≤ k ∧ k ≤ j by omega)]
      have hki : k - i < ((r.drop i).take (j - i + 1)).length := by
        rw [List.length_take, List.length_drop]
        omega
      rw [List.getElem?_reverse hki, List.length_take, List.length_drop]
      have harith : min (j - i + 1) (r.length - i) - 1 - (k - i) = j - k := by
        omega
      rw [harith, List.getElem?_take_of_lt (by omega), List.getElem?_drop]
      congr 1
      omega
    · rw [if_neg (show ¬(k < j + 1) by omega), if_neg (by omega),
        List.getElem?_drop]
      congr 1
      omega

/-- In a duplicate-free list, `indexOf` (here `findIdx?` on `== a`) is the
unique position holding `a`. -/
theorem nodup_findIdx?_getElem {r : List ℕ} (hnd : r.Nodup) {p a : ℕ}
    (hp : r[p]? = some a) : r.findIdx? (fun x => x == a) = some p := by
  induction r generalizing p with
  | nil => simp at hp
  | cons b t ih =>
    cases p with
    | zero =>
      simp only [List.getElem?_cons_zero, Option.some.injEq] at hp
      rw [List.findIdx?_cons, if_pos (by simp [hp])]
    | succ q =>
      simp only [List.getElem?_cons_succ] at hp
      have hmem : a ∈ t := by
        have := List.getElem?_eq_some_iff.mp hp
        obtain ⟨hlt, hget⟩ := this
        rw [← hget]
        exact List.getElem_mem hlt
      have hba : ¬(b == a) = true := by
        simp only [beq_iff_eq]
        intro hcon
        rw [hcon] at hnd
        exact absurd hmem (List.nodup_cons.mp hnd).1
      rw [List.findIdx?_cons, if_neg hba, List.findIdx?_succ,
        ih (List.nodup_cons.mp hnd).2 hp]
      rfl

theorem isEmpty_false_of_mem {pairs : List (ℕ × ℕ)} {e : ℕ × ℕ} (he : e ∈ pairs) :
    pairs.isEmpty = false := by
  cases pairs with
  | nil => simp at he
  | cons a t => rfl

theorem wouldBreakConstantPair_eq_any (route : List ℕ) (i j : ℕ)
    (pairs : List (ℕ × ℕ)) :
    wouldBreakConstantPair route i j pairs =
      if pairs.isEmpty then false
      else pairs.any (wouldBreakEntry route i j) := rfl

theorem wouldBreak_false_cases {route : List ℕ} {i j : ℕ}
    {pairs : List (ℕ × ℕ)} {e : ℕ × ℕ} {pos1 pos2 : ℕ} (he : e ∈ pairs)
    (h1 : route.findIdx? (fun x => x == e.1) = some pos1)
    (h2 : route.findIdx? (fun x => x == e.2) = some pos2)
    (hadj : areNeighborsAt pos1 pos2 route.length = true)
    (hwb : wouldBreakConstantPair route i j pairs = false) :
    (decide (i ≤ pos1 ∧ pos1 ≤ j) = decide (i ≤ pos2 ∧ pos2 ≤ j)) ∧
    ((i ≤ pos1 ∧ pos1 ≤ j) → (i ≤ pos2 ∧ pos2 ≤ j) →
      areNeighborsAt (j - (pos1 - i)) (j - (pos2 - i)) route.length = true) := by
  rw [wouldBreakConstantPair_eq_any, if_neg (by rw [isEmpty_false_of_mem he]; simp)]
    at hwb
  have hfe : wouldBreakEntry route i j e = false := by
    rcases hb : wouldBreakEntry route i j e with _ | _
    · rfl
    · exfalso
      have : pairs.any (wouldBreakEntry route i j) = true :=
        List.any_eq_true.mpr ⟨e, he, hb⟩
      rw [this] at hwb
      exact absurd hwb (by simp)
  unfold wouldBreakEntry at hfe
  simp only [h1, h2] at hfe
  rw [if_pos hadj] at hfe
  constructor
  · by_cases hne : decide (i ≤ pos1 ∧ pos1 ≤ j) = decide (i ≤ pos2 ∧ pos2 ≤ j)
    · exact hne
    · exfalso
      have hb : (decide (i ≤ pos1 ∧ pos1 ≤ j) != decide (i ≤ pos2 ∧ pos2 ≤ j))
          = true := by
        simpa using hne
      rw [if_pos hb] at hfe
      exact absurd hfe (by simp)
  · intro hc1 hc2
    have hd1 : decide (i ≤ pos1 ∧ pos1 ≤ j) = true := by simpa using hc1
    have hd2 : decide (i ≤ pos2 ∧ pos2 ≤ j) = true := by simpa using hc2
    rw [hd1, hd2] at hfe
    simp only [bne_self_eq_false, Bool.and_self, if_false, if_true] at hfe
    simpa using hfe

theorem wouldBreak_true_of_split {route : List ℕ} {i j : ℕ}
    {pairs : List (ℕ × ℕ)} {e : ℕ × ℕ} {pos1 pos2 : ℕ} (he : e ∈ pairs)
    (h1 : route.findIdx? (fun x => x == e.1) = some pos1)
    (h2 : route.findIdx? (fun x => x == e.2) = some pos2)
    (hadj : areNeighborsAt pos1 pos2 route.length = true)
    (hne : decide (i ≤ pos1 ∧ pos1 ≤ j) ≠ decide (i ≤ pos2 ∧ pos2 ≤ j)) :
    wouldBreakConstantPair route i j pairs = true := by
  rw [wouldBreakConstantPair_eq_any, if_neg (by rw [isEmpty_false_of_mem he]; simp)]
  apply List.any_eq_true.mpr
  refine ⟨e, he, ?_⟩
  unfold wouldBreakEntry
  simp only [h1, h2]
  rw [if_pos hadj]
  rw [if_pos (by simpa using hne)]

theorem wouldBreak_true_of_mirror_break {route : List ℕ} {i j : ℕ}
    {pairs : List (ℕ × ℕ)} {e : ℕ × ℕ} {pos1 pos2 : ℕ} (he : e ∈ pairs)
    (h1 : route.findIdx? (fun x => x == e.1) = some pos1)
    (h2 : route.findIdx? (fun x => x == e.2) = some pos2)
    (hadj : areNeighborsAt pos1 pos2 route.length = true)
    (hc1 : i ≤ pos1 ∧ pos1 ≤ j) (hc2 : i ≤ pos2 ∧ pos2 ≤ j)
    (hnb : areNeighborsAt (j - (pos1 - i)) (j - (pos2 - i)) route.length
      = false) :
    wouldBreakConstantPair route i j pairs = true := by
  rw [wouldBreakConstantPair_eq_any, if_neg (by rw [isEmpty_false_of_mem he]; simp)]
  apply List.any_eq_true.mpr
  refine ⟨e, he, ?_⟩
  unfold wouldBreakEntry
  simp only [h1, h2]
  rw [if_pos hadj]
  have hd1 : decide (i ≤ pos1 ∧ pos1 ≤ j) = true := by simpa using hc1
  have hd2 : decide (i ≤ pos2 ∧ pos2 ≤ j) = true := by simpa using hc2
  rw [hd1, hd2]
  simp only [bne_self_eq_false, Bool.and_self, if_false, if_true]
  rw [hnb]
  rfl

theorem findIdx?_beq_getElem {route : List ℕ} {a pos : ℕ}
    (h : route.findIdx? (fun x => x == a) = some pos) :
    route[pos]? = some a := by
  obtain ⟨b, hb, hpb⟩ := findIdx?_some_get h
  have hba : b = a := by simpa using hpb
  rw [← hba]
  exact hb

theorem reverseSegment_preserves_pair {route : List ℕ} {pairs : List (ℕ × ℕ)}
    {e : ℕ × ℕ} {pos1 pos2 i j : ℕ} (hnd : route.Nodup) (he : e ∈ pairs)
    (h1 : route.findIdx? (fun x => x == e.1) = some pos1)
    (h2 : route.findIdx? (fun x => x == e.2) = some pos2)
    (hadj : areNeighborsAt pos1 pos2 route.length = true)
    (hwb : wouldBreakConstantPair route i j pairs = false)
    (hi : 1 ≤ i) (hij : i ≤ j) (hj : j + 1 < route.length) :
    ∃ q1 q2, (reverseSegment route i j).findIdx? (fun x => x == e.1) = some q1 ∧
      (reverseSegment route i j).findIdx? (fun x => x == e.2) = some q2 ∧
      areNeighborsAt q1 q2 (reverseSegment route i j).length = true := by
  obtain ⟨hin_eq, hstill⟩ := wouldBreak_false_cases he h1 h2 hadj hwb
  have ha1 : route[pos1]? = some e.1 := findIdx?_beq_getElem h1
  have ha2 : route[pos2]? = some e.2 := findIdx?_beq_getElem h2
  have hp1len : pos1 < route.length := findIdx?_some_lt_length h1
  have hp2len : pos2 < route.length := findIdx?_some_lt_length h2
  have hnd2 : (reverseSegment route i j).Nodup :=
    ((reverseSegment_perm route i j hij).nodup_iff).mpr hnd
  by_cases hc1 : i ≤ pos1 ∧ pos1 ≤ j
  · have hc2 : i ≤ pos2 ∧ pos2 ≤ j := by
      have hd1 : decide (i ≤ pos1 ∧ pos1 ≤ j) = true := by simpa using hc1
      rw [hd1] at hin_eq
      exact of_decide_eq_true hin_eq.symm
    refine ⟨j - (pos1 - i), j - (pos2 - i), ?_, ?_, ?_⟩
    · apply nodup_findIdx?_getElem hnd2
      rw [reverseSegment_getElem hij (by omega), if_pos (by omega)]
      have hidx : j - (j - (pos1 - i) - i) = pos1 := by omega
      rw [hidx]
      exact ha1
    · apply nodup_findIdx?_getElem hnd2
      rw [reverseSegment_getElem hij (by omega), if_pos (by omega)]
      have hidx : j - (j - (pos2 - i) - i) = pos2 := by omega
      rw [hidx]
      exact ha2
    · rw [reverseSegment_length hij (by omega)]
      exact hstill hc1 hc2
  · have hc2 : ¬(i ≤ pos2 ∧ pos2 ≤ j) := by
      intro hcon
      have hd2 : decide (i ≤ pos2 ∧ pos2 ≤ j) = true := by simpa using hcon
      rw [hd2] at hin_eq
      exact hc1 (of_decide_eq_true hin_eq)
    refine ⟨pos1, pos2, ?_, ?_, ?_⟩
    · apply nodup_findIdx?_getElem hnd2
      rw [reverseSegment_getElem hij (by omega), if_neg hc1]
      exact ha1
    · apply nodup_findIdx?_getElem hnd2
      rw [reverseSegment_getElem hij (by omega), if_neg hc2]
      exact ha2
    · rw [reverseSegment_length hij (by omega)]
      exact hadj

theorem acceptMove_wouldBreak_false {dm : ℕ → ℕ → ℚ} {people : List Person}
    {pairs : List (ℕ × ℕ)} {route : List ℕ} {ij : ℕ × ℕ}
    (h : acceptMove dm people pairs route ij = true) :
    wouldBreakConstantPair route ij.1 ij.2 pairs = false := by
  unfold acceptMove at h
  split at h
  · exact absurd h (by simp)
  · rename_i hwb
    simpa using hwb

theorem twoOptLoop_preserves_pair (dm : ℕ → ℕ → ℚ) (people : List Person)
    (pairs : List (ℕ × ℕ)) (e : ℕ × ℕ) (he : e ∈ pairs) :
    ∀ (fuel : ℕ) (route : List ℕ), route.Nodup →
      (∃ pos1 pos2, route.findIdx? (fun x => x == e.1) = some pos1 ∧
        route.findIdx? (fun x => x == e.2) = some pos2 ∧
        areNeighborsAt pos1 pos2 route.length = true) →
      ∃ q1 q2,
        (twoOptLoop dm people pairs fuel route).findIdx? (fun x => x == e.1)
          = some q1 ∧
        (twoOptLoop dm people pairs fuel route).findIdx? (fun x => x == e.2)
          = some q2 ∧
        areNeighborsAt q1 q2 (twoOptLoop dm people pairs fuel route).length
          = true := by
  intro fuel
  induction fuel with
  | zero =>
    intro route _ h
    simpa [twoOptLoop] using h
  | succ fuel ih =>
    intro route hnd h
    obtain ⟨pos1, pos2, h1, h2, hadj⟩ := h
    rcases hfi : findImprovement dm people pairs route with _ | ij
    · simp only [twoOptLoop, hfi]
      exact ⟨pos1, pos2, h1, h2, hadj⟩
    · have heq : twoOptLoop dm people pairs (fuel + 1) route
          = twoOptLoop dm people pairs fuel (reverseSegment route ij.1 ij.2) := by
        simp only [twoOptLoop, hfi]
      rw [heq]
      have hb := findImprovement_bounds hfi
      have hacc : acceptMove dm people pairs route ij = true :=
        List.find?_some hfi
      have hwbf := acceptMove_wouldBreak_false hacc
      have hstep := reverseSegment_preserves_pair hnd he h1 h2 hadj hwbf
        (by omega) (by omega) (by omega)
      exact ih _ (((reverseSegment_perm route ij.1 ij.2 (by omega)).nodup_iff).mpr
        hnd) hstep

/-- C7 (amended): for a hard-pinned pair that is currently ring-adjacent in
the route, a 2-opt candidate with exactly one member inside `[i..j]` is
rejected, as is one with both inside whose mirrored positions are no
longer ring-adjacent; and every pinned pair adjacent before a refinement
call is still adjacent after it (for a duplicate-free route). -/
theorem twoOpt_rejects_breaking_moves_and_preserves_adjacency
    (dm : ℕ → ℕ → ℚ) (people : List Person) (pairs : List (ℕ × ℕ))
    (route : List ℕ) (e : ℕ × ℕ) (pos1 pos2 : ℕ)
    (hnd : route.Nodup) (he : e ∈ pairs)
    (h1 : route.findIdx? (fun x => x == e.1) = some pos1)
    (h2 : route.findIdx? (fun x => x == e.2) = some pos2)
    (hadj : areNeighborsAt pos1 pos2 route.length = true) :
    (∀ i j, ((i ≤ pos1 ∧ pos1 ≤ j) ↔ ¬(i ≤ pos2 ∧ pos2 ≤ j)) →
      wouldBreakConstantPair route i j pairs = true) ∧
    (∀ i j, (i ≤ pos1 ∧ pos1 ≤ j) → (i ≤ pos2 ∧ pos2 ≤ j) →
      areNeighborsAt (j - (pos1 - i)) (j - (pos2 - i)) route.length = false →
      wouldBreakConstantPair route i j pairs = true) ∧
    (∀ fuel, ∃ q1 q2,
      (twoOpt dm people pairs fuel route).findIdx? (fun x => x == e.1)
        = some q1 ∧
      (twoOpt dm people pairs fuel route).findIdx? (fun x => x == e.2)
        = some q2 ∧
      areNeighborsAt q1 q2 (twoOpt dm people pairs fuel route).length = true) := by
  refine ⟨?_, ?_, ?_⟩
  · intro i j hiff
    apply wouldBreak_true_of_split he h1 h2 hadj
    by_cases hp1 : i ≤ pos1 ∧ pos1 ≤ j
    · have hnp2 := hiff.mp hp1
      simp [hp1, hnp2]
    · have hp2 : i ≤ pos2 ∧ pos2 ≤ j := by
        by_contra hnp2
        exact hp1 (hiff.mpr hnp2)
      simp [hp1, hp2]
  · intro i j hc1 hc2 hnb
    exact wouldBreak_true_of_mirror_break he h1 h2 hadj hc1 hc2 hnb
  · intro fuel
    exact twoOptLoop_preserves_pair dm people pairs e he fuel route hnd
      ⟨pos1, pos2, h1, h2, hadj⟩

/-- C7 witness: a concrete adjacent pinned pair in a 4-element route. -/
theorem twoOpt_rejects_breaking_moves_witness :
    ([0, 1, 2, 3] : List ℕ).Nodup ∧
    ((0, 1) : ℕ × ℕ) ∈ ([(0, 1), (1, 0)] : List (ℕ × ℕ)) ∧
    ([0, 1, 2, 3] : List ℕ).findIdx? (fun x => x == 0) = some 0 ∧
    ([0, 1, 2, 3] : List ℕ).findIdx? (fun x => x == 1) = some 1 ∧
    areNeighborsAt 0 1 4 = true ∧
    ((∀ i j, ((i ≤ 0 ∧ 0 ≤ j) ↔ ¬(i ≤ 1 ∧ 1 ≤ j)) →
      wouldBreakConstantPair [0, 1, 2, 3] i j [(0, 1), (1, 0)] = true) ∧
    (∀ i j, (i ≤ 0 ∧ 0 ≤ j) → (i ≤ 1 ∧ 1 ≤ j) →
      areNeighborsAt (j - (0 - i)) (j - (1 - i)) 4 = false →
      wouldBreakConstantPair [0, 1, 2, 3] i j [(0, 1), (1, 0)] = true) ∧
    (∀ fuel, ∃ q1 q2,
      (twoOpt (createDistanceMatrix [] commonalityDistance []) [] [(0, 1), (1, 0)]
        fuel [0, 1, 2, 3]).findIdx? (fun x => x == 0) = some q1 ∧
      (twoOpt (createDistanceMatrix [] commonalityDistance []) [] [(0, 1), (1, 0)]
        fuel [0, 1, 2, 3]).findIdx? (fun x => x == 1) = some q2 ∧
      areNeighborsAt q1 q2
        (twoOpt (createDistanceMatrix [] commonalityDistance []) [] [(0, 1), (1, 0)]
          fuel [0, 1, 2, 3]).length = true)) :=
  ⟨by decide, by decide, by decide, by decide, by decide,
    twoOpt_rejects_breaking_moves_and_preserves_adjacency
      (createDistanceMatrix [] commonalityDistance []) [] [(0, 1), (1, 0)]
      [0, 1, 2, 3] (0, 1) 0 1 (by decide) (by decide) (by decide) (by decide)
      (by decide)⟩

theorem splitMatrix_01 : splitMatrix 0 1 = 1 := by
  show commonalityDistance ({"t1", "t2", "t3", "t4"} : Finset String)
    ({"u1", "u2", "u3", "u4"} : Finset String) = 1
  have hcard : (({"t1", "t2", "t3", "t4"} : Finset String) ∩
      {"u1", "u2", "u3", "u4"}).card = 0 := by decide
  rw [commonalityDistance, hcard]
  norm_num

theorem splitMatrix_23 : splitMatrix 2 3 = 1 := by
  show commonalityDistance ({"t1", "t2", "t3", "t4"} : Finset String)
    ({"u1", "u2", "u3", "u4"} : Finset String) = 1
  have hcard : (({"t1", "t2", "t3", "t4"} : Finset String) ∩
      {"u1", "u2", "u3", "u4"}).card = 0 := by decide
  rw [commonalityDistance, hcard]
  norm_num

theorem splitMatrix_02 : splitMatrix 0 2 = 0 := by
  show commonalityDistance ({"t1", "t2", "t3", "t4"} : Finset String)
    ({"t1", "t2", "t3", "t4"} : Finset String) = 0
  have hcard : (({"t1", "t2", "t3", "t4"} : Finset String) ∩
      {"t1", "t2", "t3", "t4"}).card = 4 := by decide
  rw [commonalityDistance, hcard]
  norm_num

theorem splitMatrix_13 : splitMatrix 1 3 = 0 := by rfl

theorem split_moveBefore : moveBefore splitMatrix [0, 1, 2, 3] 1 2 = 2 := by
  show splitMatrix 0 1 + splitMatrix 2 3 = 2
  rw [splitMatrix_01, splitMatrix_23]
  norm_num

theorem split_moveAfter : moveAfter splitMatrix [0, 1, 2, 3] 1 2 = 0 := by
  show splitMatrix 0 2 + splitMatrix 1 3 = 0
  rw [splitMatrix_02, splitMatrix_13]
  norm_num

theorem split_penalty : isolationPenalty splitPeople [0, 1, 2, 3] 1 2 = 0 := by
  unfold isolationPenalty
  have hA : hasCommonThemes (pget splitPeople (rget [0, 1, 2, 3] 0))
      (pget splitPeople (rget [0, 1, 2, 3] 2)) = true := by decide
  have hB : hasCommonThemes (pget splitPeople (rget [0, 1, 2, 3] 1))
      (pget splitPeople (rget [0, 1, 2, 3] 3)) = true := by decide
  rw [if_pos hA, if_pos hB]
  norm_num

theorem split_acceptMove :
    acceptMove splitMatrix splitPeople splitPairs [0, 1, 2, 3] (1, 2) = true := by
  unfold acceptMove
  have hwbf : wouldBreakConstantPair [0, 1, 2, 3] 1 2 splitPairs = false := by
    decide
  rw [if_neg (by rw [hwbf]; simp)]
  rw [split_moveAfter, split_moveBefore, split_penalty]
  norm_num

theorem split_findImprovement :
    findImprovement splitMatrix splitPeople splitPairs [0, 1, 2, 3]
      = some (1, 2) := by
  unfold findImprovement
  have hcand : candidatePairs ([0, 1, 2, 3] : List ℕ).length = [(1, 2)] := by
    decide
  rw [hcand, List.find?_cons_of_pos _ split_acceptMove]

/-- C7 counterexample: in the route `[0, 1, 2, 3]` the pinned pair
`(1, 3)` is NOT currently ring-adjacent (positions 1 and 3), the candidate
move `(i, j) = (1, 2)` has exactly one member of the pair (position 1)
inside the segment, yet the move is not rejected: `wouldBreakConstantPair`
is `false`, the scan selects the move, and `twoOpt` performs the
reversal. -/
theorem twoOpt_performs_move_splitting_nonadjacent_pair :
    ([0, 1, 2, 3] : List ℕ).findIdx? (fun x => x == 1) = some 1 ∧
    ([0, 1, 2, 3] : List ℕ).findIdx? (fun x => x == 3) = some 3 ∧
    areNeighborsAt 1 3 4 = false ∧
    ((1 ≤ 1 ∧ 1 ≤ 2) ∧ ¬(1 ≤ 3 ∧ 3 ≤ 2)) ∧
    wouldBreakConstantPair [0, 1, 2, 3] 1 2 splitPairs = false ∧
    findImprovement splitMatrix splitPeople splitPairs [0, 1, 2, 3]
      = some (1, 2) ∧
    twoOpt splitMatrix splitPeople splitPairs 1 [0, 1, 2, 3] = [0, 2, 1, 3] := by
  refine ⟨by decide, by decide, by decide, by decide, by decide,
    split_findImprovement, ?_⟩
  unfold twoOpt
  show twoOptLoop splitMatrix splitPeople splitPairs (0 + 1) [0, 1, 2, 3]
    = [0, 2, 1, 3]
  rw [twoOptLoop, split_findImprovement]
  rfl

/-! ## Table assignment: snake placement, pair repair, statistics -/

/-- C4 (amended): table `t` of declared size `s` holds the next
participants of the route: `ceil(s/2)` left seats in route order followed
by up to `ceil(s/2)` right seats in reversed route order — so it consumes
`min(2*ceil(s/2), remaining)` participants, which exceeds the declared
size by one for odd `s` when enough participants remain. -/
theorem snakeTables_spec (people : List Person) (order : List ℕ)
    (sizes : List ℕ) (t : ℕ) (ht : t < sizes.length) :
    tget (snakeTables people order sizes) t =
      ⟨((order.drop (consumedBefore sizes t)).take (ceilHalf (sizes.getD t 0))).map
          (fun k => some (pget people k)) ++
        ((((order.drop (consumedBefore sizes t)).drop
              (ceilHalf (sizes.getD t 0))).take (ceilHalf (sizes.getD t 0))).map
          (fun k => some (pget people k))).reverse⟩ ∧
    (tget (snakeTables people order sizes) t).seats.length =
      min (ceilHalf (sizes.getD t 0) + ceilHalf (sizes.getD t 0))
        (order.length - consumedBefore sizes t) := by
  induction sizes generalizing order t with
  | nil => simp at ht
  | cons s rest ih =>
    cases t with
    | zero =>
      have hseats : tget (snakeTables people order (s :: rest)) 0 =
          ⟨((order.take (ceilHalf s)).map (fun k => some (pget people k))) ++
            ((((order.drop (ceilHalf s)).take (ceilHalf s))).map
              (fun k => some (pget people k))).reverse⟩ := rfl
      constructor
      · rw [hseats]
        simp only [consumedBefore, List.take_zero, List.map_nil, List.sum_nil,
          List.drop_zero, List.getD_cons_zero]
      · rw [hseats]
        simp only [consumedBefore, List.take_zero, List.map_nil, List.sum_nil,
          List.drop_zero, List.getD_cons_zero, List.length_append,
          List.length_reverse, List.length_map, List.length_take,
          List.length_drop]
        omega
    | succ t0 =>
      have hrec : tget (snakeTables people order (s :: rest)) (t0 + 1) =
          tget (snakeTables people (order.drop (ceilHalf s + ceilHalf s)) rest)
            t0 := rfl
      have hconsumed : consumedBefore (s :: rest) (t0 + 1) =
          ceilHalf s + ceilHalf s + consumedBefore rest t0 := by
        simp only [consumedBefore, List.take_succ_cons, List.map_cons,
          List.sum_cons]
      have hdrop : order.drop (consumedBefore (s :: rest) (t0 + 1)) =
          (order.drop (ceilHalf s + ceilHalf s)).drop (consumedBefore rest t0) := by
        rw [List.drop_drop, hconsumed]
      have hlen : t0 < rest.length := by
        simpa using ht
      obtain ⟨ih1, ih2⟩ := ih (order.drop (ceilHalf s + ceilHalf s)) t0 hlen
      have hgd0 : (s :: rest).getD (t0 + 1) 0 = rest.getD t0 0 := rfl
      constructor
      · rw [hrec, ih1, hdrop, hgd0]
      · rw [hrec, ih2]
        have hgd : (s :: rest).getD (t0 + 1) 0 = rest.getD t0 0 := rfl
        rw [hgd, List.length_drop, hconsumed]
        omega

/-- C4 counterexample: with the declared table size 3 and a route of four
participants, `assignToTables` seats four people at the table (the right
side also gets `ceil(3/2) = 2` seats), not `min(3, 4) = 3`:
the claim's `floor(s/2)`-sized right side and `min(s, remaining)`
consumption are contradicted for odd `s`. -/
theorem assignToTables_overfills_odd_table :
    ((assignToTables ⟨[0, 1, 2, 3], ((0 : ℚ) : WithTop ℚ), splitPeople⟩
        [3]).tables.getD 0 ⟨[]⟩).seats.length = 4 ∧
    ¬ ((assignToTables ⟨[0, 1, 2, 3], ((0 : ℚ) : WithTop ℚ), splitPeople⟩
        [3]).tables.getD 0 ⟨[]⟩).seats.length = min 3 4 := by
  constructor
  · rfl
  · intro hcon
    rw [show min 3 4 = 3 by decide] at hcon
    have h4 : ((assignToTables ⟨[0, 1, 2, 3], ((0 : ℚ) : WithTop ℚ), splitPeople⟩
        [3]).tables.getD 0 ⟨[]⟩).seats.length = 4 := rfl
    rw [h4] at hcon
    exact absurd hcon (by decide)

/-- C4 witness: the characterization at a concrete table list. -/
theorem snakeTables_spec_witness :
    (0 < ([4] : List ℕ).length) ∧
    (tget (snakeTables splitPeople [0, 1, 2, 3] [4]) 0 =
      ⟨((([0, 1, 2, 3] : List ℕ).drop (consumedBefore [4] 0)).take
            (ceilHalf (([4] : List ℕ).getD 0 0))).map
          (fun k => some (pget splitPeople k)) ++
        (((((([0, 1, 2, 3] : List ℕ).drop (consumedBefore [4] 0))).drop
              (ceilHalf (([4] : List ℕ).getD 0 0))).take
            (ceilHalf (([4] : List ℕ).getD 0 0))).map
          (fun k => some (pget splitPeople k))).reverse⟩ ∧
      (tget (snakeTables splitPeople [0, 1, 2, 3] [4]) 0).seats.length =
        min (ceilHalf (([4] : List ℕ).getD 0 0) + ceilHalf (([4] : List ℕ).getD 0 0))
          (([0, 1, 2, 3] : List ℕ).length - consumedBefore [4] 0)) :=
  ⟨by decide, snakeTables_spec splitPeople [0, 1, 2, 3] [4] 0 (by decide)⟩

/-! ## Per-seat statistics -/

theorem seatStat_mem_calculateStatistics {tables : List Table} {tIdx sIdx : ℕ}
    {person : Person} (ht : tIdx < tables.length)
    (hs : (tget tables tIdx).seats[sIdx]? = some (some person)) :
    seatStat tIdx (tget tables tIdx).seats sIdx person
      ∈ calculateStatistics tables := by
  unfold calculateStatistics
  apply List.mem_flatMap.mpr
  refine ⟨(tIdx, tget tables tIdx), ?_, ?_⟩
  · apply List.mk_mem_enum_iff_getElem?.mpr
    unfold tget
    rw [List.getD_eq_getElem _ _ ht, List.getElem?_eq_getElem ht]
  · apply List.mem_filterMap.mpr
    refine ⟨(sIdx, some person), ?_, rfl⟩
    exact List.mk_mem_enum_iff_getElem?.mpr hs

theorem seatStat_combined {seats : List (Option Person)} {sIdx : ℕ}
    {person : Person} (hs : seats[sIdx]? = some (some person)) :
    (seatStat 0 seats sIdx person).combinedSimilarity =
      (if sIdx = 0 then specNeighborSimilarity seats person (sIdx + 1)
      else if sIdx = seats.length - 1 then
        specNeighborSimilarity seats person (sIdx - 1)
      else
        (specNeighborSimilarity seats person (sIdx - 1) +
          specNeighborSimilarity seats person (sIdx + 1)) / 2) := by
  have hlen : sIdx < seats.length := by
    by_contra hc
    rw [List.getElem?_eq_none (by omega)] at hs
    exact absurd hs (by simp)
  unfold seatStat specNeighborSimilarity
  dsimp only
  have hnext : (if sIdx + 1 < seats.length then seats.getD (sIdx + 1) none
      else none) = seats.getD (sIdx + 1) none := by
    by_cases hc : sIdx + 1 < seats.length
    · rw [if_pos hc]
    · rw [if_neg hc, List.getD_eq_default _ _ (by omega)]
  rw [hnext]
  by_cases h0 : sIdx = 0
  · rw [if_pos h0, if_pos h0]
  · rw [if_neg h0, if_neg h0, if_pos (show sIdx > 0 by omega)]

/-- C9: every occupied seat yields a statistics record whose similarity
uses the commonality scoring function for both neighbor comparisons —
the average of the two neighbor similarities, or the single available one
when the seat is first or last of its table — and whose table number and
seat position are 1-indexed. -/
theorem calculateStatistics_per_seat (tables : List Table) (tIdx sIdx : ℕ)
    (person : Person) (ht : tIdx < tables.length)
    (hs : (tget tables tIdx).seats[sIdx]? = some (some person)) :
    ∃ st ∈ calculateStatistics tables,
      st.name = person.name ∧
      st.tableNumber = tIdx + 1 ∧
      st.position = sIdx + 1 ∧
      st.combinedSimilarity =
        (if sIdx = 0 then
          specNeighborSimilarity (tget tables tIdx).seats person (sIdx + 1)
        else if sIdx = (tget tables tIdx).seats.length - 1 then
          specNeighborSimilarity (tget tables tIdx).seats person (sIdx - 1)
        else
          (specNeighborSimilarity (tget tables tIdx).seats person (sIdx - 1) +
            specNeighborSimilarity (tget tables tIdx).seats person (sIdx + 1))
            / 2) := by
  refine ⟨seatStat tIdx (tget tables tIdx).seats sIdx person,
    seatStat_mem_calculateStatistics ht hs, rfl, rfl, rfl, ?_⟩
  have h := @seatStat_combined (tget tables tIdx).seats sIdx person hs
  have hsame : (seatStat tIdx (tget tables tIdx).seats sIdx person).combinedSimilarity
      = (seatStat 0 (tget tables tIdx).seats sIdx person).combinedSimilarity := rfl
  rw [hsame, h]

/-- C9 witness: a one-table, two-seat instance. -/
theorem calculateStatistics_per_seat_witness :
    0 < ([⟨[some ⟨"x", {"a"}⟩, some ⟨"y", {"b"}⟩]⟩] : List Table).length ∧
    (tget [⟨[some ⟨"x", {"a"}⟩, some ⟨"y", {"b"}⟩]⟩] 0).seats[0]?
      = some (some ⟨"x", {"a"}⟩) ∧
    ∃ st ∈ calculateStatistics [⟨[some ⟨"x", {"a"}⟩, some ⟨"y", {"b"}⟩]⟩],
      st.name = (⟨"x", {"a"}⟩ : Person).name ∧
      st.tableNumber = 0 + 1 ∧
      st.position = 0 + 1 ∧
      st.combinedSimilarity =
        (if (0 : ℕ) = 0 then
          specNeighborSimilarity
            (tget [⟨[some ⟨"x", {"a"}⟩, some ⟨"y", {"b"}⟩]⟩] 0).seats
            ⟨"x", {"a"}⟩ (0 + 1)
        else if (0 : ℕ) =
            (tget [⟨[some ⟨"x", {"a"}⟩, some ⟨"y", {"b"}⟩]⟩] 0).seats.length - 1
          then
          specNeighborSimilarity
            (tget [⟨[some ⟨"x", {"a"}⟩, some ⟨"y", {"b"}⟩]⟩] 0).seats
            ⟨"x", {"a"}⟩ (0 - 1)
        else
          (specNeighborSimilarity
            (tget [⟨[some ⟨"x", {"a"}⟩, some ⟨"y", {"b"}⟩]⟩] 0).seats
            ⟨"x", {"a"}⟩ (0 - 1) +
          specNeighborSimilarity
            (tget [⟨[some ⟨"x", {"a"}⟩, some ⟨"y", {"b"}⟩]⟩] 0).seats
            ⟨"x", {"a"}⟩ (0 + 1)) / 2) :=
  ⟨by decide, by decide,
    calculateStatistics_per_seat [⟨[some ⟨"x", {"a"}⟩, some ⟨"y", {"b"}⟩]⟩] 0 0
      ⟨"x", {"a"}⟩ (by decide) (by decide)⟩

/-! ## Occupant bookkeeping for table repair -/

theorem filterMap_set_none {seats : List (Option Person)} {s : ℕ} {p : Person}
    (h : seats[s]? = some (some p)) :
    (seats.filterMap id).Perm (p :: (seats.set s none).filterMap id) := by
  induction seats generalizing s with
  | nil => simp at h
  | cons b t ih =>
    cases s with
    | zero =>
      simp only [List.getElem?_cons_zero, Option.some.injEq] at h
      rw [h]
      simp [List.filterMap_cons]
    | succ q =>
      simp only [List.getElem?_cons_succ] at h
      have hih := ih h
      cases b with
      | none =>
        simpa [List.filterMap_cons] using hih
      | some w =>
        simp only [List.filterMap_cons, List.set_cons_succ]
        exact (hih.cons w).trans (List.Perm.swap p w _)

theorem filterMap_set_some {seats : List (Option Person)} {s : ℕ} {p : Person}
    (h : seats[s]? = some none) :
    ((seats.set s (some p)).filterMap id).Perm (p :: seats.filterMap id) := by
  induction seats generalizing s with
  | nil => simp at h
  | cons b t ih =>
    cases s with
    | zero =>
      simp only [List.getElem?_cons_zero, Option.some.injEq] at h
      subst h
      simp [List.filterMap_cons]
    | succ q =>
      simp only [List.getElem?_cons_succ] at h
      have hih := ih h
      cases b with
      | none =>
        simpa [List.filterMap_cons] using hih
      | some w =>
        simp only [List.filterMap_cons, List.set_cons_succ]
        exact (hih.cons w).trans (List.Perm.swap p w _)

theorem filterMap_insertIdx {seats : List (Option Person)} {s : ℕ} {p : Person}
    (h : s ≤ seats.length) :
    ((seats.insertIdx s (some p)).filterMap id).Perm (p :: seats.filterMap id) := by
  induction seats generalizing s with
  | nil =>
    cases s with
    | zero => simp [List.filterMap_cons]
    | succ q => exact absurd h (by simp)
  | cons b t ih =>
    cases s with
    | zero => simp [List.filterMap_cons]
    | succ q =>
      have hih := ih (by simpa using h)
      rw [List.insertIdx_succ_cons]
      cases b with
      | none =>
        simpa [List.filterMap_cons] using hih
      | some w =>
        simp only [List.filterMap_cons]
        exact (hih.cons w).trans (List.Perm.swap p w _)

theorem filterMap_eraseIdx_none {seats : List (Option Person)} {r : ℕ}
    (h : seats[r]? = some none) :
    (seats.eraseIdx r).filterMap id = seats.filterMap id := by
  induction seats generalizing r with
  | nil => simp at h
  | cons b t ih =>
    cases r with
    | zero =>
      simp only [List.getElem?_cons_zero, Option.some.injEq] at h
      subst h
      simp [List.filterMap_cons, List.eraseIdx]
    | succ q =>
      simp only [List.getElem?_cons_succ] at h
      have heq : (b :: t).eraseIdx (q + 1) = b :: t.eraseIdx q := rfl
      rw [heq, List.filterMap_cons, List.filterMap_cons, ih h]

theorem dropTrailingNulls_filterMap (t : Table) :
    (dropTrailingNulls t).seats.filterMap id = t.seats.filterMap id := by
  unfold dropTrailingNulls
  rw [List.filterMap_reverse]
  have hsplit : t.seats.reverse.takeWhile (fun seat => seat.isNone) ++
      t.seats.reverse.dropWhile (fun seat => seat.isNone) = t.seats.reverse :=
    List.takeWhile_append_dropWhile _ _
  have htake : (t.seats.reverse.takeWhile (fun seat => seat.isNone)).filterMap id
      = [] := by
    rw [List.filterMap_eq_nil_iff]
    intro a ha
    have := List.mem_takeWhile_imp ha
    cases a with
    | none => rfl
    | some w => simp at this
  have h2 : (t.seats.reverse.dropWhile (fun seat => seat.isNone)).filterMap id
      = (t.seats.reverse).filterMap id := by
    conv_rhs => rw [← hsplit]
    rw [List.filterMap_append, htake, List.nil_append]
  rw [h2, List.filterMap_reverse, List.reverse_reverse]

theorem removeFirstNull_filterMap (t : Table) :
    (removeFirstNull t).seats.filterMap id = t.seats.filterMap id := by
  unfold removeFirstNull
  rcases hf : t.seats.findIdx? (fun seat => seat.isNone) with _ | r
  all_goals simp only [hf]
  · obtain ⟨a, ha, hpa⟩ := findIdx?_some_get hf
    have hnone : a = none := by
      cases a with
      | none => rfl
      | some w => simp at hpa
    rw [hnone] at ha
    exact filterMap_eraseIdx_none ha

theorem occupants_set {tables : List Table} {t : ℕ} (ht : t < tables.length)
    (x : Table) :
    (occupants (tables.set t x) ++ occupantsT (tget tables t)).Perm
      (occupants tables ++ occupantsT x) := by
  induction tables generalizing t with
  | nil => simp at ht
  | cons tb rest ih =>
    cases t with
    | zero =>
      show (occupants (x :: rest) ++ occupantsT tb).Perm _
      rw [List.perm_iff_count]
      intro a
      show List.count a ((occupantsT x ++ occupants rest) ++ occupantsT tb) = _
      have hrhs : occupants (tb :: rest) = occupantsT tb ++ occupants rest := rfl
      rw [hrhs]
      simp only [List.count_append]
      omega
    | succ q =>
      have hq : q < rest.length := by simpa using ht
      have hih := ih hq
      show (occupants (tb :: rest.set q x) ++ occupantsT (tget rest q)).Perm _
      have hl : occupants (tb :: rest.set q x)
          = occupantsT tb ++ occupants (rest.set q x) := rfl
      have hr : occupants (tb :: rest) = occupantsT tb ++ occupants rest := rfl
      rw [hl, hr, List.perm_iff_count]
      intro a
      have hc := List.perm_iff_count.mp hih a
      simp only [List.count_append] at hc ⊢
      omega

theorem occupants_map_dropTrailing (tables : List Table) :
    occupants (tables.map dropTrailingNulls) = occupants tables := by
  induction tables with
  | nil => rfl
  | cons tb rest ih =>
    show occupantsT (dropTrailingNulls tb) ++ occupants (rest.map dropTrailingNulls)
      = occupantsT tb ++ occupants rest
    rw [ih]
    unfold occupantsT
    rw [dropTrailingNulls_filterMap]

/-! ## Locating people on tables -/

theorem findPersonPos_spec {tables : List Table} {nm : String} {t s : ℕ}
    (h : findPersonPos tables nm = some (t, s)) :
    t < tables.length ∧
      ∃ p, (tget tables t).seats[s]? = some (some p) ∧ p.name = nm := by
  unfold findPersonPos at h
  have hmem := List.mem_of_mem_getLast? h
  rw [List.mem_flatMap] at hmem
  obtain ⟨te, hte, hmem2⟩ := hmem
  rw [List.mem_filterMap] at hmem2
  obtain ⟨se, hse, hf⟩ := hmem2
  rcases hseat : se.2 with _ | p
  · simp only [hseat] at hf
    simp at hf
  · simp only [hseat] at hf
    by_cases hname : p.name == nm
    · rw [if_pos hname] at hf
      injection hf with hf
      have hte2 := List.mem_enum_iff_getElem?.mp hte
      have hse2 := List.mem_enum_iff_getElem?.mp hse
      have ht2 : te.1 = t := congrArg Prod.fst hf
      have hs2 : se.1 = s := congrArg Prod.snd hf
      rw [ht2] at hte2
      have htlt : t < tables.length := by
        by_contra hc
        rw [List.getElem?_eq_none (by omega)] at hte2
        exact absurd hte2 (by simp)
      refine ⟨htlt, p, ?_, by simpa using hname⟩
      rw [hs2, hseat] at hse2
      have htget : tget tables t = te.2 := by
        unfold tget
        rw [List.getD_eq_getElem?_getD, hte2]
        rfl
      rw [htget]
      exact hse2
    · rw [if_neg hname] at hf
      exact absurd hf (by simp)

theorem findPersonPos_isSome {tables : List Table} {nm : String} {p : Person}
    (hp : p ∈ occupants tables) (hnm : p.name = nm) :
    (findPersonPos tables nm).isSome := by
  unfold findPersonPos
  rw [List.getLast?_isSome]
  intro hnil
  unfold occupants at hp
  rw [List.mem_flatMap] at hp
  obtain ⟨tb, htb, hp2⟩ := hp
  unfold occupantsT at hp2
  rw [List.mem_filterMap] at hp2
  obtain ⟨seat, hseat, hid⟩ := hp2
  have hseat2 : seat = some p := by
    cases seat with
    | none => simp at hid
    | some w => simpa using hid
  obtain ⟨tIdx, htIdx⟩ := List.mem_iff_getElem?.mp htb
  obtain ⟨sIdx, hsIdx⟩ := List.mem_iff_getElem?.mp hseat
  have hmem : (tIdx, sIdx) ∈ tables.enum.flatMap (fun te =>
      te.2.seats.enum.filterMap (fun se =>
        match se.2 with
        | some q => if q.name == nm then some (te.1, se.1) else none
        | none => none)) := by
    rw [List.mem_flatMap]
    refine ⟨(tIdx, tb), List.mk_mem_enum_iff_getElem?.mpr htIdx, ?_⟩
    rw [List.mem_filterMap]
    refine ⟨(sIdx, seat), List.mk_mem_enum_iff_getElem?.mpr hsIdx, ?_⟩
    rw [hseat2]
    simp only
    rw [if_pos (by simp [hnm])]
  rw [hnil] at hmem
  simp at hmem

theorem lookupPersonByName_spec {people : List Person} {nm : String}
    {person : Person} (h : lookupPersonByName people nm = some person) :
    person ∈ people ∧ person.name = nm := by
  unfold lookupPersonByName at h
  suffices hgen : ∀ (l : List Person) (acc : Option Person),
      (∀ q, acc = some q → q ∈ people ∧ q.name = nm) →
      (∀ x ∈ l, x ∈ people) →
      ∀ q, l.foldl (fun acc p => if p.name == nm then some p else acc) acc
        = some q → q ∈ people ∧ q.name = nm by
    exact hgen people none (by intro q hq; simp at hq) (fun x hx => hx) person h
  intro l
  induction l with
  | nil =>
    intro acc hacc _ q hq
    exact hacc q (by simpa using hq)
  | cons b t ih =>
    intro acc hacc hsub q hq
    rw [List.foldl_cons] at hq
    refine ih _ ?_ (fun x hx => hsub x (List.mem_cons_of_mem b hx)) q hq
    intro w hw
    by_cases hb : b.name == nm
    · rw [if_pos hb] at hw
      injection hw with hw
      rw [← hw]
      exact ⟨hsub b (List.mem_cons_self b t), by simpa using hb⟩
    · rw [if_neg hb] at hw
      exact hacc w hw

theorem name_unique {people : List Person}
    (hnames : (people.map Person.name).Nodup) {p q : Person}
    (hp : p ∈ people) (hq : q ∈ people) (h : p.name = q.name) : p = q :=
  List.inj_on_of_nodup_map hnames hp hq h

/-! ## Small table-access lemmas -/

theorem tget_set_self {tables : List Table} {t : ℕ} (ht : t < tables.length)
    (x : Table) : tget (tables.set t x) t = x := by
  unfold tget
  rw [List.getD_eq_getElem?_getD, List.getElem?_set_self (by simpa using ht)]
  rfl

theorem tget_set_ne {tables : List Table} {t t' : ℕ} (h : t ≠ t') (x : Table) :
    tget (tables.set t x) t' = tget tables t' := by
  unfold tget
  rw [List.getD_eq_getElem?_getD, List.getD_eq_getElem?_getD,
    List.getElem?_set_ne h]

theorem length_set_tables (tables : List Table) (t : ℕ) (x : Table) :
    (tables.set t x).length = tables.length := List.length_set tables t x

theorem occupant_mem {tables : List Table} {t s : ℕ} {p : Person}
    (ht : t < tables.length) (hp : (tget tables t).seats[s]? = some (some p)) :
    p ∈ occupants tables := by
  unfold occupants
  rw [List.mem_flatMap]
  refine ⟨tget tables t, ?_, ?_⟩
  · unfold tget
    rw [List.getD_eq_getElem _ _ ht]
    exact List.getElem_mem ht
  · unfold occupantsT
    rw [List.mem_filterMap]
    exact ⟨some p, List.mem_iff_getElem?.mpr ⟨s, hp⟩, rfl⟩

theorem findAdjacentSeat_null {t : Table} {s a : ℕ}
    (h : findAdjacentSeat t s = some a) :
    t.seats[a]? = some none ∧ a < t.seats.length := by
  unfold findAdjacentSeat at h
  by_cases hn : t.seats.length = 0
  · rw [if_pos hn] at h
    exact absurd h (by simp)
  · rw [if_neg hn] at h
    set prevIdx := if s > 0 then s - 1 else t.seats.length - 1 with hprev
    by_cases hp : t.seats.getD prevIdx (some defaultPerson) = none
    · rw [if_pos hp] at h
      injection h with h
      rw [← h]
      have hlt : prevIdx < t.seats.length := by
        by_contra hc
        rw [List.getD_eq_default _ _ (by omega)] at hp
        simp at hp
      refine ⟨?_, hlt⟩
      rw [List.getD_eq_getElem?_getD, List.getElem?_eq_getElem hlt] at hp
      rw [List.getElem?_eq_getElem hlt]
      simpa using hp
    · rw [if_neg hp] at h
      set nextIdx := if s < t.seats.length - 1 then s + 1 else 0 with hnext
      by_cases hq : t.seats.getD nextIdx (some defaultPerson) = none
      · rw [if_pos hq] at h
        injection h with h
        rw [← h]
        have hlt : nextIdx < t.seats.length := by
          by_contra hc
          rw [List.getD_eq_default _ _ (by omega)] at hq
          simp at hq
        refine ⟨?_, hlt⟩
        rw [List.getD_eq_getElem?_getD, List.getElem?_eq_getElem hlt] at hq
        rw [List.getElem?_eq_getElem hlt]
        simpa using hq
      · rw [if_neg hq] at h
        exact absurd h (by simp)

theorem findAdjacentSeat_adjacent {t : Table} {s a : ℕ}
    (h : findAdjacentSeat t s = some a) (hs : s < t.seats.length) :
    areNeighborsAt s a t.seats.length = true := by
  unfold findAdjacentSeat at h
  by_cases hn : t.seats.length = 0
  · rw [if_pos hn] at h
    exact absurd h (by simp)
  · rw [if_neg hn] at h
    set prevIdx := if s > 0 then s - 1 else t.seats.length - 1 with hprev
    by_cases hp : t.seats.getD prevIdx (some defaultPerson) = none
    · rw [if_pos hp] at h
      injection h with h
      rw [← h, hprev]
      unfold areNeighborsAt
      by_cases h0 : s > 0
      · rw [if_pos h0]
        have : s - 1 + 1 = s := by omega
        simp [this]
      · rw [if_neg h0]
        have hs0 : s = 0 := by omega
        simp [hs0]
    · rw [if_neg hp] at h
      set nextIdx := if s < t.seats.length - 1 then s + 1 else 0 with hnext
      by_cases hq : t.seats.getD nextIdx (some defaultPerson) = none
      · rw [if_pos hq] at h
        injection h with h
        rw [← h, hnext]
        unfold areNeighborsAt
        by_cases hlast : s < t.seats.length - 1
        · rw [if_pos hlast]
          simp
        · rw [if_neg hlast]
          have hslast : s = t.seats.length - 1 := by omega
          simp [hslast]
      · rw [if_neg hq] at h
        exact absurd h (by simp)

/-! ## Occupants of the snake placement and of the repair steps -/

theorem filterMap_id_map_some (f : ℕ → Person) (l : List ℕ) :
    (l.map (fun k => some (f k))).filterMap id = l.map f := by
  induction l with
  | nil => rfl
  | cons a t ih => simp [List.filterMap_cons, ih]

theorem snakeTables_occupants (people : List Person) (order : List ℕ)
    (sizes : List ℕ)
    (hcap : order.length ≤ (sizes.map (fun s => ceilHalf s + ceilHalf s)).sum) :
    (occupants (snakeTables people order sizes)).Perm
      (order.map (pget people)) := by
  induction sizes generalizing order with
  | nil =>
    simp only [List.map_nil, List.sum_nil, Nat.le_zero] at hcap
    rw [List.length_eq_zero] at hcap
    rw [hcap]
    exact List.Perm.refl _
  | cons s rest ih =>
    have hocc : occupants (snakeTables people order (s :: rest)) =
        ((order.take (ceilHalf s)).map (pget people) ++
          (((order.drop (ceilHalf s)).take (ceilHalf s)).map (pget people)).reverse)
        ++ occupants (snakeTables people (order.drop (ceilHalf s + ceilHalf s))
            rest) := by
      show occupantsT _ ++ _ = _
      unfold occupantsT
      congr 1
      show (((order.take (ceilHalf s)).map (fun k => some (pget people k))) ++
        (((order.drop (ceilHalf s)).take (ceilHalf s)).map
          (fun k => some (pget people k))).reverse).filterMap id = _
      rw [List.filterMap_append, ← List.map_reverse, filterMap_id_map_some,
        filterMap_id_map_some, List.map_reverse]
    rw [hocc]
    have hcap2 : (order.drop (ceilHalf s + ceilHalf s)).length ≤
        ((rest.map (fun s => ceilHalf s + ceilHalf s)).sum) := by
      simp only [List.map_cons, List.sum_cons] at hcap
      rw [List.length_drop]
      omega
    have hih := ih (order.drop (ceilHalf s + ceilHalf s)) hcap2
    have hsplit : order.map (pget people) =
        ((order.take (ceilHalf s)).map (pget people) ++
          ((order.drop (ceilHalf s)).take (ceilHalf s)).map (pget people)) ++
        (order.drop (ceilHalf s + ceilHalf s)).map (pget people) := by
      rw [← List.map_append, ← List.take_add, ← List.map_append,
        List.take_append_drop]
    rw [hsplit]
    refine List.Perm.append ?_ hih
    exact List.Perm.append_left _ (List.reverse_perm _)

theorem occupants_update_perm {tables : List Table} {t : ℕ}
    (ht : t < tables.length) {x : Table}
    (hx : (occupantsT x).Perm (occupantsT (tget tables t))) :
    (occupants (tables.set t x)).Perm (occupants tables) := by
  have h := occupants_set ht x
  rw [List.perm_iff_count]
  intro a
  have hc := List.perm_iff_count.mp h a
  have hx2 := List.perm_iff_count.mp hx a
  simp only [List.count_append] at hc
  omega

theorem getElem?_insertIdx {α : Type} (l : List α) (x : α) (pos k : ℕ)
    (hpos : pos ≤ l.length) :
    (l.insertIdx pos x)[k]? =
      if k < pos then l[k]? else if k = pos then some x else l[k - 1]? := by
  induction l generalizing pos k with
  | nil =>
    have hpos0 : pos = 0 := by simpa using hpos
    subst hpos0
    rw [List.insertIdx_zero]
    cases k with
    | zero => simp
    | succ q => simp
  | cons b t ih =>
    cases pos with
    | zero =>
      rw [List.insertIdx_zero]
      cases k with
      | zero => simp
      | succ q => simp
    | succ p =>
      rw [List.insertIdx_succ_cons]
      cases k with
      | zero =>
        rw [if_pos (by omega)]
        simp
      | succ q =>
        have hih := ih p q (by simpa using hpos)
        rw [List.getElem?_cons_succ, hih]
        by_cases h1 : q < p
        · rw [if_pos h1, if_pos (show q + 1 < p + 1 by omega),
            List.getElem?_cons_succ]
        · by_cases h2 : q = p
          · rw [if_neg h1, if_pos h2,
              if_neg (show ¬ q + 1 < p + 1 by omega),
              if_pos (show q + 1 = p + 1 by omega)]
          · rw [if_neg h1, if_neg h2,
              if_neg (show ¬ q + 1 < p + 1 by omega),
              if_neg (show ¬ q + 1 = p + 1 by omega)]
            have hq : q + 1 - 1 = (q - 1) + 1 := by omega
            rw [hq, List.getElem?_cons_succ]

theorem occupantsT_removeFirstNull (t : Table) :
    occupantsT (removeFirstNull t) = occupantsT t :=
  removeFirstNull_filterMap t

theorem occupantsT_dropTrailingNulls (t : Table) :
    occupantsT (dropTrailingNulls t) = occupantsT t :=
  dropTrailingNulls_filterMap t

theorem repairAdjacent_occupants {tablesC : List Table} {t1 s1 s2b : ℕ}
    {person2 : Person} (ht1 : t1 < tablesC.length)
    (hp2 : (tget tablesC t1).seats[s2b]? = some (some person2))
    (hs1 : s1 < (tget tablesC t1).seats.length) :
    (occupants (repairAdjacent tablesC t1 s1 s2b person2)).Perm
      (occupants tablesC) := by
  unfold repairAdjacent
  by_cases hadj : areNeighborsAt s1 s2b (tget tablesC t1).seats.length
  · rw [if_pos hadj]
  · rw [if_neg hadj]
    have hb : (occupantsT (tget tablesC t1)).Perm
        (person2 :: occupantsT (setSeat (tget tablesC t1) s2b none)) :=
      filterMap_set_none hp2
    rcases hfa : findAdjacentSeat (setSeat (tget tablesC t1) s2b none) s1
        with _ | a
    all_goals simp only [hfa]
    · apply occupants_update_perm ht1
      have hlenB : (setSeat (tget tablesC t1) s2b none).seats.length
          = (tget tablesC t1).seats.length :=
        List.length_set _ _ _
      have hins : (occupantsT (insertSeat (setSeat (tget tablesC t1) s2b none)
          (s1 + 1) person2)).Perm
          (person2 :: occupantsT (setSeat (tget tablesC t1) s2b none)) :=
        filterMap_insertIdx (by rw [hlenB]; omega)
      rw [occupantsT_removeFirstNull]
      exact hins.trans hb.symm
    · apply occupants_update_perm ht1
      obtain ⟨hnull, _⟩ := findAdjacentSeat_null hfa
      have h1 : (occupantsT (setSeat (setSeat (tget tablesC t1) s2b none) a
          (some person2))).Perm
          (person2 :: occupantsT (setSeat (tget tablesC t1) s2b none)) :=
        filterMap_set_some hnull
      exact h1.trans hb.symm

theorem occupants_set_cons {tables : List Table} {t : ℕ} (ht : t < tables.length)
    {x : Table} {p : Person}
    (hx : (occupantsT (tget tables t)).Perm (p :: occupantsT x)) :
    (occupants tables).Perm (p :: occupants (tables.set t x)) := by
  have h := occupants_set ht x
  rw [List.perm_iff_count]
  intro b
  have hc := List.perm_iff_count.mp h b
  have hx2 := List.perm_iff_count.mp hx b
  simp only [List.count_append] at hc
  by_cases hbp : b = p
  · subst hbp
    rw [List.count_cons_self] at hx2 ⊢
    omega
  · rw [List.count_cons_of_ne hbp] at hx2 ⊢
    omega

theorem occupants_set_cons' {tables : List Table} {t : ℕ}
    (ht : t < tables.length) {x : Table} {p : Person}
    (hx : (occupantsT x).Perm (p :: occupantsT (tget tables t))) :
    (occupants (tables.set t x)).Perm (p :: occupants tables) := by
  have h := occupants_set ht x
  rw [List.perm_iff_count]
  intro b
  have hc := List.perm_iff_count.mp h b
  have hx2 := List.perm_iff_count.mp hx b
  simp only [List.count_append] at hc
  by_cases hbp : b = p
  · subst hbp
    rw [List.count_cons_self] at hx2 ⊢
    omega
  · rw [List.count_cons_of_ne hbp] at hx2 ⊢
    omega

theorem moveToTable_spec {tables : List Table} {t1 s1 t2 s2 : ℕ}
    {person2 q1 : Person}
    (ht1 : t1 < tables.length) (ht2 : t2 < tables.length)
    (hq1 : (tget tables t1).seats[s1]? = some (some q1))
    (hq2 : (tget tables t2).seats[s2]? = some (some person2))
    (hne : q1 ≠ person2) :
    (occupants (moveToTable tables t1 s1 t2 s2 person2).1).Perm
        (occupants tables) ∧
      (moveToTable tables t1 s1 t2 s2 person2).1.length = tables.length ∧
      (tget (moveToTable tables t1 s1 t2 s2 person2).1 t1).seats[s1]?
          = some (some q1) ∧
      (tget (moveToTable tables t1 s1 t2 s2 person2).1 t1).seats[
          (moveToTable tables t1 s1 t2 s2 person2).2]?
          = some (some person2) ∧
      (moveToTable tables t1 s1 t2 s2 person2).2 ≠ s1 := by
  unfold moveToTable
  by_cases h12 : t1 = t2
  · subst h12
    rw [if_pos rfl]
    refine ⟨List.Perm.refl _, rfl, hq1, hq2, ?_⟩
    intro heq
    have heq2 : s2 = s1 := heq
    rw [heq2, hq1] at hq2
    simp only [Option.some.injEq] at hq2
    exact hne hq2
  · rw [if_neg h12]
    have hs1 : s1 < (tget tables t1).seats.length := by
      by_contra hcon
      rw [List.getElem?_eq_none (by omega)] at hq1
      exact absurd hq1 (by simp)
    have ht2' : t2 ≠ t1 := fun h => h12 h.symm
    have htA1 : tget (tables.set t2 (setSeat (tget tables t2) s2 none)) t1
        = tget tables t1 := tget_set_ne ht2' _
    have hlenA : (tables.set t2 (setSeat (tget tables t2) s2 none)).length
        = tables.length := List.length_set _ _ _
    have ht1A : t1 < (tables.set t2 (setSeat (tget tables t2) s2 none)).length := by
      rw [hlenA]
      exact ht1
    have hA : (occupants tables).Perm
        (person2 ::
          occupants (tables.set t2 (setSeat (tget tables t2) s2 none))) :=
      occupants_set_cons ht2 (filterMap_set_none hq2)
    have hq1A : (tget (tables.set t2 (setSeat (tget tables t2) s2 none))
        t1).seats[s1]? = some (some q1) := by
      rw [htA1]
      exact hq1
    rcases hfa : findAdjacentSeat
        (tget (tables.set t2 (setSeat (tget tables t2) s2 none)) t1) s1
        with _ | a
    all_goals simp only [hfa]
    · set tablesA := tables.set t2 (setSeat (tget tables t2) s2 none)
        with hAdef
      set Z := insertSeat (tget tablesA t1) (s1 + 1) person2 with hZdef
      set tablesB := tablesA.set t1 Z with hBdef
      have hs1A : s1 < (tget tablesA t1).seats.length := by
        rw [htA1]
        exact hs1
      have hZB : (occupants tablesB).Perm (person2 :: occupants tablesA) :=
        occupants_set_cons' ht1A (filterMap_insertIdx (by omega))
      have hBperm : (occupants tablesB).Perm (occupants tables) :=
        hZB.trans hA.symm
      have hlenB : tablesB.length = tables.length := by
        rw [hBdef, List.length_set, hlenA]
      have ht2B : t2 < tablesB.length := by
        rw [hlenB]
        exact ht2
      have hres : (occupants
          (tablesB.set t2 (removeFirstNull (tget tablesB t2)))).Perm
          (occupants tablesB) :=
        occupants_update_perm ht2B (by rw [occupantsT_removeFirstNull])
      have htB1 : tget tablesB t1 = Z := tget_set_self ht1A Z
      have htres1 : tget (tablesB.set t2 (removeFirstNull (tget tablesB t2)))
          t1 = Z := by
        rw [tget_set_ne ht2', htB1]
      have hZs1 : Z.seats[s1]? = some (some q1) := by
        show ((tget tablesA t1).seats.insertIdx (s1 + 1) (some person2))[s1]?
          = some (some q1)
        rw [getElem?_insertIdx _ _ _ _ (by omega), if_pos (by omega)]
        exact hq1A
      have hZs2 : Z.seats[s1 + 1]? = some (some person2) := by
        show ((tget tablesA t1).seats.insertIdx (s1 + 1)
          (some person2))[s1 + 1]? = some (some person2)
        rw [getElem?_insertIdx _ _ _ _ (by omega),
          if_neg (show ¬ s1 + 1 < s1 + 1 by omega), if_pos rfl]
      refine ⟨hres.trans hBperm, ?_, ?_, ?_, ?_⟩
      · show (tablesB.set t2 (removeFirstNull (tget tablesB t2))).length
          = tables.length
        rw [List.length_set]
        exact hlenB
      · show (tget (tablesB.set t2 (removeFirstNull (tget tablesB t2)))
          t1).seats[s1]? = some (some q1)
        rw [htres1]
        exact hZs1
      · show (tget (tablesB.set t2 (removeFirstNull (tget tablesB t2)))
          t1).seats[s1 + 1]? = some (some person2)
        rw [htres1]
        exact hZs2
      · show s1 + 1 ≠ s1
        omega
    · set tablesA := tables.set t2 (setSeat (tget tables t2) s2 none)
        with hAdef
      obtain ⟨hnull, halt⟩ := findAdjacentSeat_null hfa
      have has1 : a ≠ s1 := by
        intro h
        rw [h] at hnull
        rw [hnull] at hq1A
        exact absurd hq1A (by simp)
      have hY : (occupants
          (tablesA.set t1 (setSeat (tget tablesA t1) a (some person2)))).Perm
          (person2 :: occupants tablesA) :=
        occupants_set_cons' ht1A (filterMap_set_some hnull)
      have hYperm : (occupants
          (tablesA.set t1 (setSeat (tget tablesA t1) a (some person2)))).Perm
          (occupants tables) := hY.trans hA.symm
      have htY1 : tget (tablesA.set t1 (setSeat (tget tablesA t1) a
          (some person2))) t1 = setSeat (tget tablesA t1) a (some person2) :=
        tget_set_self ht1A _
      refine ⟨hYperm, ?_, ?_, ?_, has1⟩
      · show (tablesA.set t1 _).length = tables.length
        rw [List.length_set, hlenA]
      · show (tget (tablesA.set t1 (setSeat (tget tablesA t1) a
          (some person2))) t1).seats[s1]? = some (some q1)
        rw [htY1]
        show ((tget tablesA t1).seats.set a (some person2))[s1]?
          = some (some q1)
        rw [List.getElem?_set_ne has1]
        exact hq1A
      · show (tget (tablesA.set t1 (setSeat (tget tablesA t1) a
          (some person2))) t1).seats[a]? = some (some person2)
        rw [htY1]
        show ((tget tablesA t1).seats.set a (some person2))[a]?
          = some (some person2)
        rw [List.getElem?_set_self halt]

theorem lt_of_getElem?_occ {seats : List (Option Person)} {s : ℕ} {p : Person}
    (h : seats[s]? = some (some p)) : s < seats.length := by
  by_contra hcon
  rw [List.getElem?_eq_none (by omega)] at h
  exact absurd h (by simp)

theorem processPair_occupants {people : List Person} {tables : List Table}
    {nm : String × String}
    (hnodup : (people.map Person.name).Nodup)
    (hnm : nm.1 ≠ nm.2)
    (hperm : (occupants tables).Perm people) :
    (occupants (processPair people tables nm)).Perm people := by
  unfold processPair
  rcases hl1 : lookupPersonByName people nm.1 with _ | p1
  · exact hperm
  rcases hl2 : lookupPersonByName people nm.2 with _ | person2
  · exact hperm
  rcases hf1 : findPersonPos tables nm.1 with _ | pos1
  · exact hperm
  rcases hf2 : findPersonPos tables nm.2 with _ | pos2
  · exact hperm
  obtain ⟨t1, s1⟩ := pos1
  obtain ⟨t2, s2⟩ := pos2
  simp only [hf1, hf2]
  obtain ⟨hp2mem, hp2name⟩ := lookupPersonByName_spec hl2
  obtain ⟨ht1, q1, hq1, hq1name⟩ := findPersonPos_spec hf1
  obtain ⟨ht2, q2, hq2, hq2name⟩ := findPersonPos_spec hf2
  have hq2mem : q2 ∈ people := hperm.mem_iff.mp (occupant_mem ht2 hq2)
  have hq2eq : q2 = person2 :=
    name_unique hnodup hq2mem hp2mem (by rw [hq2name, hp2name])
  subst hq2eq
  have hne : q1 ≠ q2 := by
    intro h
    apply hnm
    rw [← hq1name, ← hp2name, h]
  obtain ⟨hmv, hmvlen, hmv1, hmv2, _hmvne⟩ :=
    moveToTable_spec ht1 ht2 hq1 hq2 hne
  have hrep := @repairAdjacent_occupants
    (moveToTable tables t1 s1 t2 s2 q2).1 t1 s1
    (moveToTable tables t1 s1 t2 s2 q2).2 q2
    (by rw [hmvlen]; exact ht1) hmv2 (lt_of_getElem?_occ hmv1)
  exact hrep.trans (hmv.trans hperm)

theorem foldl_processPair_occupants {people : List Person}
    (hnodup : (people.map Person.name).Nodup)
    (pairNames : List (String × String))
    (hpairs : ∀ nm ∈ pairNames, nm.1 ≠ nm.2)
    {tables : List Table}
    (hperm : (occupants tables).Perm people) :
    (occupants (pairNames.foldl (processPair people) tables)).Perm people := by
  induction pairNames generalizing tables with
  | nil => exact hperm
  | cons nm rest ih =>
    exact ih (fun x hx => hpairs x (List.mem_cons_of_mem _ hx))
      (processPair_occupants hnodup (hpairs nm (List.mem_cons_self _ _)) hperm)

theorem enforceConstantPairsOnTables_occupants
    {pairNames : List (String × String)} {people : List Person}
    {constantPairs : List (ℕ × ℕ)} {tables : List Table}
    (hnodup : (people.map Person.name).Nodup)
    (hpairs : ∀ nm ∈ pairNames, nm.1 ≠ nm.2)
    (hperm : (occupants tables).Perm people) :
    (occupants (enforceConstantPairsOnTables pairNames people constantPairs
      tables)).Perm people := by
  unfold enforceConstantPairsOnTables
  by_cases he : constantPairs.isEmpty
  · rw [if_pos he]
    exact hperm
  · rw [if_neg he, occupants_map_dropTrailing]
    exact foldl_processPair_occupants hnodup _ hpairs hperm

theorem map_getD_range {α : Type} (l : List α) (d : α) :
    (List.range l.length).map (fun i => l.getD i d) = l := by
  induction l with
  | nil => rfl
  | cons a t ih =>
    show (List.range (t.length + 1)).map (fun i => (a :: t).getD i d) = a :: t
    rw [List.range_succ_eq_map, List.map_cons, List.map_map]
    have hcomp : ((fun i => (a :: t).getD i d) ∘ Nat.succ)
        = (fun i => t.getD i d) := rfl
    rw [hcomp]
    rw [ih]
    rfl

theorem le_two_ceilHalf (s : ℕ) : s ≤ ceilHalf s + ceilHalf s := by
  unfold ceilHalf
  omega

theorem sum_le_capacity (sizes : List ℕ) :
    sizes.sum ≤ (sizes.map (fun s => ceilHalf s + ceilHalf s)).sum := by
  induction sizes with
  | nil => simp
  | cons s rest ih =>
    simp only [List.map_cons, List.sum_cons]
    have := le_two_ceilHalf s
    omega

/-- C3: for every seating result whose `order` is a permutation of the
participant indices, with duplicate-free participant names and a
table-size list whose total declared capacity covers everyone, the
multiset of persons seated across all tables after `assignToTables`
(snake placement, constant-pair repair and trailing-empty-seat
stripping) is exactly the participant list: every participant occupies
exactly one seat, nobody is dropped and nobody is seated twice. -/
theorem assignToTables_seats_each_participant_once
    (res : SeatingResult) (tableSizes : List ℕ)
    (hperm : res.order.Perm (List.range res.people.length))
    (hnodup : (res.people.map Person.name).Nodup)
    (hcap : res.people.length ≤ tableSizes.sum) :
    (occupants (assignToTables res tableSizes).tables).Perm res.people := by
  unfold assignToTables
  show (occupants (enforceConstantPairsOnTables CONSTANT_PAIRS_NAMES
    res.people (findConstantPairs res.people)
    (snakeTables res.people res.order tableSizes))).Perm res.people
  apply enforceConstantPairsOnTables_occupants hnodup
  · intro nm hnm
    revert hnm
    show nm ∈ CONSTANT_PAIRS_NAMES → nm.1 ≠ nm.2
    intro hnm
    rcases List.mem_cons.mp hnm with h | h
    · subst h
      decide
    · rcases List.mem_cons.mp h with h2 | h2
      · subst h2
        decide
      · exact absurd h2 (by simp)
  · have hlen : res.order.length = res.people.length := by
      rw [hperm.length_eq, List.length_range]
    have hcap2 : res.order.length
        ≤ (tableSizes.map (fun s => ceilHalf s + ceilHalf s)).sum := by
      rw [hlen]
      exact le_trans hcap (sum_le_capacity tableSizes)
    have hocc := snakeTables_occupants res.people res.order tableSizes hcap2
    have h2 : (res.order.map (pget res.people)).Perm
        ((List.range res.people.length).map (pget res.people)) :=
      hperm.map _
    have h3 : (List.range res.people.length).map (pget res.people)
        = res.people := map_getD_range res.people defaultPerson
    exact hocc.trans (h2.trans (by rw [h3]))

theorem assignToTables_seats_each_participant_once_witness :
    (occupants (assignToTables
      ⟨[1, 0], 0, [⟨"Ann", ∅⟩, ⟨"Bo", ∅⟩]⟩ [2]).tables).Perm
      [⟨"Ann", ∅⟩, ⟨"Bo", ∅⟩] :=
  assignToTables_seats_each_participant_once _ _ (by decide) (by decide)
    (by decide)

theorem areNeighborsAt_iff {pos1 pos2 n : ℕ} :
    areNeighborsAt pos1 pos2 n = true ↔
      ((pos1 + 1 = pos2 ∨ pos2 + 1 = pos1) ∨ (pos1 = 0 ∧ pos2 = n - 1))
        ∨ (pos2 = 0 ∧ pos1 = n - 1) := by
  unfold areNeighborsAt
  simp only [Bool.or_eq_true, Bool.and_eq_true, beq_iff_eq]

theorem TablePairAdj_set {seats : List (Option Person)} {p q : Person}
    {a : ℕ} {v : Option Person}
    (hvp : seats[a]? ≠ some (some p)) (hvq : seats[a]? ≠ some (some q))
    (h : TablePairAdj seats p q) : TablePairAdj (seats.set a v) p q := by
  obtain ⟨s1, s2, h1, h2, hadj⟩ := h
  have ha1 : a ≠ s1 := by
    intro he
    rw [he] at hvp
    exact hvp h1
  have ha2 : a ≠ s2 := by
    intro he
    rw [he] at hvq
    exact hvq h2
  refine ⟨s1, s2, ?_, ?_, ?_⟩
  · rw [List.getElem?_set_ne ha1]
    exact h1
  · rw [List.getElem?_set_ne ha2]
    exact h2
  · rw [List.length_set]
    exact hadj

theorem TablePairAdj_eraseIdx_null {seats : List (Option Person)} {p q : Person}
    {r : ℕ} (hr : seats[r]? = some none)
    (h : TablePairAdj seats p q) : TablePairAdj (seats.eraseIdx r) p q := by
  obtain ⟨s1, s2, h1, h2, hadj⟩ := h
  have hr1 : r ≠ s1 := by
    intro he
    rw [he, h1] at hr
    exact absurd hr (by simp)
  have hr2 : r ≠ s2 := by
    intro he
    rw [he, h2] at hr
    exact absurd hr (by simp)
  have hs1 : s1 < seats.length := lt_of_getElem?_occ h1
  have hs2 : s2 < seats.length := lt_of_getElem?_occ h2
  have hrl : r < seats.length := by
    by_contra hcon
    rw [List.getElem?_eq_none (by omega)] at hr
    exact absurd hr (by simp)
  refine ⟨if s1 < r then s1 else s1 - 1, if s2 < r then s2 else s2 - 1,
    ?_, ?_, ?_⟩
  · by_cases hc : s1 < r
    · rw [if_pos hc, List.getElem?_eraseIdx, if_pos hc]
      exact h1
    · rw [if_neg hc, List.getElem?_eraseIdx,
        if_neg (show ¬ s1 - 1 < r by omega),
        show s1 - 1 + 1 = s1 by omega]
      exact h1
  · by_cases hc : s2 < r
    · rw [if_pos hc, List.getElem?_eraseIdx, if_pos hc]
      exact h2
    · rw [if_neg hc, List.getElem?_eraseIdx,
        if_neg (show ¬ s2 - 1 < r by omega),
        show s2 - 1 + 1 = s2 by omega]
      exact h2
  · rw [List.length_eraseIdx, if_pos hrl]
    rw [areNeighborsAt_iff] at hadj ⊢
    split_ifs <;> omega

theorem TablePairAdj_insertIdx_after {seats : List (Option Person)}
    {p q w : Person} {k : ℕ} {x : Option Person}
    (hk : seats[k]? = some (some w)) (hwp : w ≠ p) (hwq : w ≠ q)
    (h : TablePairAdj seats p q) :
    TablePairAdj (seats.insertIdx (k + 1) x) p q := by
  obtain ⟨s1, s2, h1, h2, hadj⟩ := h
  have hkl : k < seats.length := lt_of_getElem?_occ hk
  have hk1 : k ≠ s1 := by
    intro he
    rw [he, h1] at hk
    simp only [Option.some.injEq] at hk
    exact hwp hk.symm
  have hk2 : k ≠ s2 := by
    intro he
    rw [he, h2] at hk
    simp only [Option.some.injEq] at hk
    exact hwq hk.symm
  have hs1 : s1 < seats.length := lt_of_getElem?_occ h1
  have hs2 : s2 < seats.length := lt_of_getElem?_occ h2
  refine ⟨if s1 < k + 1 then s1 else s1 + 1,
    if s2 < k + 1 then s2 else s2 + 1, ?_, ?_, ?_⟩
  · by_cases hc : s1 < k + 1
    · rw [if_pos hc, getElem?_insertIdx _ _ _ _ (by omega), if_pos hc]
      exact h1
    · rw [if_neg hc, getElem?_insertIdx _ _ _ _ (by omega),
        if_neg (show ¬ s1 + 1 < k + 1 by omega),
        if_neg (show ¬ s1 + 1 = k + 1 by omega)]
      simp only [Nat.add_sub_cancel]
      exact h1
  · by_cases hc : s2 < k + 1
    · rw [if_pos hc, getElem?_insertIdx _ _ _ _ (by omega), if_pos hc]
      exact h2
    · rw [if_neg hc, getElem?_insertIdx _ _ _ _ (by omega),
        if_neg (show ¬ s2 + 1 < k + 1 by omega),
        if_neg (show ¬ s2 + 1 = k + 1 by omega)]
      simp only [Nat.add_sub_cancel]
      exact h2
  · rw [List.length_insertIdx _ _ (by omega)]
    rw [areNeighborsAt_iff] at hadj ⊢
    split_ifs <;> omega

theorem TablePairAdj_removeFirstNull {t : Table} {p q : Person}
    (h : TablePairAdj t.seats p q) :
    TablePairAdj (removeFirstNull t).seats p q := by
  unfold removeFirstNull
  rcases hf : t.seats.findIdx? (fun seat => seat.isNone) with _ | r
  all_goals simp only [hf]
  · exact h
  · obtain ⟨a, ha, hpa⟩ := findIdx?_some_get hf
    have ha2 : t.seats[r]? = some none := by
      rw [ha]
      cases a with
      | none => rfl
      | some z => simp at hpa
    exact TablePairAdj_eraseIdx_null ha2 h

theorem dropTrailingNulls_eq_self {seats : List (Option Person)} {v : Person}
    (hl : seats.getLast? = some (some v)) :
    dropTrailingNulls ⟨seats⟩ = ⟨seats⟩ := by
  unfold dropTrailingNulls
  simp only [Table.mk.injEq]
  rcases hrev : seats.reverse with _ | ⟨a, tl⟩
  · have h0 : seats = [] := by simpa using congrArg List.reverse hrev
    simp [h0]
  · have hhead : seats.reverse.head? = seats.getLast? := List.head?_reverse seats
    rw [hrev, hl] at hhead
    simp only [List.head?_cons, Option.some.injEq] at hhead
    rw [List.dropWhile_cons, if_neg (by rw [hhead]; simp)]
    rw [← hrev, List.reverse_reverse]

theorem TablePairAdj_dropTrailingNulls {t : Table} {p q : Person}
    (h : TablePairAdj t.seats p q) :
    TablePairAdj (dropTrailingNulls t).seats p q := by
  obtain ⟨s1, s2, h1, h2, hadj⟩ := h
  rw [areNeighborsAt_iff] at hadj
  have hs1 : s1 < t.seats.length := lt_of_getElem?_occ h1
  have hs2 : s2 < t.seats.length := lt_of_getElem?_occ h2
  rcases hadj with (hcons | hw1) | hw2
  · -- both members stay at their seats: occupied seats are in the kept prefix
    have hsplit : t.seats = (dropTrailingNulls t).seats ++
        (t.seats.reverse.takeWhile (fun seat => seat.isNone)).reverse := by
      show t.seats
        = (t.seats.reverse.dropWhile (fun seat => seat.isNone)).reverse ++
          (t.seats.reverse.takeWhile (fun seat => seat.isNone)).reverse
      rw [← List.reverse_append, List.takeWhile_append_dropWhile,
        List.reverse_reverse]
    have hkeep : ∀ s (x : Person), t.seats[s]? = some (some x) →
        s < (dropTrailingNulls t).seats.length ∧
          (dropTrailingNulls t).seats[s]? = some (some x) := by
      intro s x hs
      by_cases hsd : s < (dropTrailingNulls t).seats.length
      · rw [hsplit, List.getElem?_append, if_pos hsd] at hs
        exact ⟨hsd, hs⟩
      · exfalso
        rw [hsplit, List.getElem?_append_right (by omega)] at hs
        have hmem : (some x : Option Person)
            ∈ (t.seats.reverse.takeWhile (fun seat => seat.isNone)).reverse :=
          List.getElem?_mem hs
        rw [List.mem_reverse] at hmem
        have := List.mem_takeWhile_imp hmem
        simp at this
    obtain ⟨hd1, hD1⟩ := hkeep s1 p h1
    obtain ⟨hd2, hD2⟩ := hkeep s2 q h2
    refine ⟨s1, s2, hD1, hD2, ?_⟩
    rw [areNeighborsAt_iff]
    left
    left
    exact hcons
  · -- a wrap pair occupies the last seat, so nothing is stripped
    have hid : dropTrailingNulls t = t := by
      have hlast : t.seats.getLast? = some (some q) := by
        rw [List.getLast?_eq_getElem?,
          show t.seats.length - 1 = s2 by omega]
        exact h2
      exact dropTrailingNulls_eq_self hlast
    rw [hid]
    refine ⟨s1, s2, h1, h2, ?_⟩
    rw [areNeighborsAt_iff]
    left
    right
    exact hw1
  · have hid : dropTrailingNulls t = t := by
      have hlast : t.seats.getLast? = some (some p) := by
        rw [List.getLast?_eq_getElem?,
          show t.seats.length - 1 = s1 by omega]
        exact h1
      exact dropTrailingNulls_eq_self hlast
    rw [hid]
    refine ⟨s1, s2, h1, h2, ?_⟩
    rw [areNeighborsAt_iff]
    right
    exact hw2

theorem SeatedAdjacent_set {tables : List Table} {t : ℕ} {x : Table}
    {p q : Person}
    (hstep : TablePairAdj (tget tables t).seats p q
      → TablePairAdj x.seats p q) :
    SeatedAdjacent tables p q → SeatedAdjacent (tables.set t x) p q := by
  rintro ⟨u, hu, hadj⟩
  by_cases hut : u = t
  · subst hut
    refine ⟨u, by rw [List.length_set]; exact hu, ?_⟩
    rw [tget_set_self hu]
    exact hstep hadj
  · refine ⟨u, by rw [List.length_set]; exact hu, ?_⟩
    rw [tget_set_ne (fun he => hut he.symm)]
    exact hadj

theorem SeatedAdjacent_dropTrailing {tables : List Table} {p q : Person} :
    SeatedAdjacent tables p q
      → SeatedAdjacent (tables.map dropTrailingNulls) p q := by
  rintro ⟨u, hu, hadj⟩
  refine ⟨u, by rw [List.length_map]; exact hu, ?_⟩
  have hmap : tget (tables.map dropTrailingNulls) u
      = dropTrailingNulls (tget tables u) := by
    unfold tget
    rw [List.getD_eq_getElem?_getD, List.getElem?_map,
      List.getElem?_eq_getElem hu, List.getD_eq_getElem?_getD,
      List.getElem?_eq_getElem hu]
    rfl
  rw [hmap]
  exact TablePairAdj_dropTrailingNulls hadj

theorem repairAdjacent_establishes {tablesC : List Table} {t1 s1 s2b : ℕ}
    {p1 p2 : Person} (ht1 : t1 < tablesC.length)
    (hp1 : (tget tablesC t1).seats[s1]? = some (some p1))
    (hp2 : (tget tablesC t1).seats[s2b]? = some (some p2))
    (hne : s1 ≠ s2b) :
    SeatedAdjacent (repairAdjacent tablesC t1 s1 s2b p2) p1 p2 := by
  unfold repairAdjacent
  by_cases hadj : areNeighborsAt s1 s2b (tget tablesC t1).seats.length
  · rw [if_pos hadj]
    exact ⟨t1, ht1, s1, s2b, hp1, hp2, hadj⟩
  · rw [if_neg hadj]
    have hp1B : (setSeat (tget tablesC t1) s2b none).seats[s1]?
        = some (some p1) := by
      show ((tget tablesC t1).seats.set s2b none)[s1]? = some (some p1)
      rw [List.getElem?_set_ne (fun he => hne he.symm)]
      exact hp1
    have hlenB : (setSeat (tget tablesC t1) s2b none).seats.length
        = (tget tablesC t1).seats.length := List.length_set _ _ _
    have hs1 : s1 < (tget tablesC t1).seats.length := lt_of_getElem?_occ hp1
    rcases hfa : findAdjacentSeat (setSeat (tget tablesC t1) s2b none) s1
        with _ | a
    all_goals simp only [hfa]
    · refine ⟨t1, by rw [List.length_set]; exact ht1, ?_⟩
      rw [tget_set_self ht1]
      apply TablePairAdj_removeFirstNull
      show TablePairAdj ((setSeat (tget tablesC t1) s2b
        none).seats.insertIdx (s1 + 1) (some p2)) p1 p2
      refine ⟨s1, s1 + 1, ?_, ?_, ?_⟩
      · rw [getElem?_insertIdx _ _ _ _ (by rw [hlenB]; omega),
          if_pos (by omega)]
        exact hp1B
      · rw [getElem?_insertIdx _ _ _ _ (by rw [hlenB]; omega),
          if_neg (show ¬ s1 + 1 < s1 + 1 by omega), if_pos rfl]
      · rw [areNeighborsAt_iff]
        exact Or.inl (Or.inl (Or.inl rfl))
    · obtain ⟨hnull, halt⟩ := findAdjacentSeat_null hfa
      have hadj2 : areNeighborsAt s1 a
          (setSeat (tget tablesC t1) s2b none).seats.length = true :=
        findAdjacentSeat_adjacent hfa (by rw [hlenB]; exact hs1)
      refine ⟨t1, by rw [List.length_set]; exact ht1, ?_⟩
      rw [tget_set_self ht1]
      have hs1a : s1 ≠ a := by
        intro he
        rw [← he, hp1B] at hnull
        exact absurd hnull (by simp)
      refine ⟨s1, a, ?_, ?_, ?_⟩
      · show ((setSeat (tget tablesC t1) s2b none).seats.set a
          (some p2))[s1]? = some (some p1)
        rw [List.getElem?_set_ne (fun he => hs1a he.symm)]
        exact hp1B
      · show ((setSeat (tget tablesC t1) s2b none).seats.set a
          (some p2))[a]? = some (some p2)
        rw [List.getElem?_set_self halt]
      · show areNeighborsAt s1 a ((setSeat (tget tablesC t1) s2b
          none).seats.set a (some p2)).length = true
        rw [List.length_set]
        exact hadj2

theorem repairAdjacent_preserves {tablesC : List Table} {t1 s1 s2b : ℕ}
    {person2 w q1 p q : Person}
    (hq1 : (tget tablesC t1).seats[s1]? = some (some q1))
    (hw : (tget tablesC t1).seats[s2b]? = some (some w))
    (hne : s1 ≠ s2b)
    (hq1p : q1 ≠ p) (hq1q : q1 ≠ q) (hwp : w ≠ p) (hwq : w ≠ q)
    (h : SeatedAdjacent tablesC p q) :
    SeatedAdjacent (repairAdjacent tablesC t1 s1 s2b person2) p q := by
  unfold repairAdjacent
  by_cases hadj : areNeighborsAt s1 s2b (tget tablesC t1).seats.length
  · rw [if_pos hadj]
    exact h
  · rw [if_neg hadj]
    have hq1B : (setSeat (tget tablesC t1) s2b none).seats[s1]?
        = some (some q1) := by
      show ((tget tablesC t1).seats.set s2b none)[s1]? = some (some q1)
      rw [List.getElem?_set_ne (fun he => hne he.symm)]
      exact hq1
    have hB : TablePairAdj (tget tablesC t1).seats p q
        → TablePairAdj (setSeat (tget tablesC t1) s2b none).seats p q :=
      fun hT => TablePairAdj_set
        (by rw [hw]; simp only [ne_eq, Option.some.injEq]; exact hwp)
        (by rw [hw]; simp only [ne_eq, Option.some.injEq]; exact hwq) hT
    rcases hfa : findAdjacentSeat (setSeat (tget tablesC t1) s2b none) s1
        with _ | a
    all_goals simp only [hfa]
    · refine SeatedAdjacent_set (fun hT => ?_) h
      apply TablePairAdj_removeFirstNull
      show TablePairAdj ((setSeat (tget tablesC t1) s2b
        none).seats.insertIdx (s1 + 1) (some person2)) p q
      exact TablePairAdj_insertIdx_after hq1B hq1p hq1q (hB hT)
    · obtain ⟨hnull, _⟩ := findAdjacentSeat_null hfa
      refine SeatedAdjacent_set (fun hT => ?_) h
      show TablePairAdj ((setSeat (tget tablesC t1) s2b none).seats.set a
        (some person2)) p q
      exact TablePairAdj_set (by rw [hnull]; simp) (by rw [hnull]; simp)
        (hB hT)

theorem moveToTable_cross_positions {tables : List Table} {t1 s1 t2 s2 : ℕ}
    {person2 q1 : Person} (h12 : t1 ≠ t2) (ht1 : t1 < tables.length)
    (hq1 : (tget tables t1).seats[s1]? = some (some q1)) :
    (moveToTable tables t1 s1 t2 s2 person2).1.length = tables.length ∧
      (tget (moveToTable tables t1 s1 t2 s2 person2).1 t1).seats[s1]?
          = some (some q1) ∧
      (tget (moveToTable tables t1 s1 t2 s2 person2).1 t1).seats[
          (moveToTable tables t1 s1 t2 s2 person2).2]?
          = some (some person2) ∧
      (moveToTable tables t1 s1 t2 s2 person2).2 ≠ s1 := by
  unfold moveToTable
  rw [if_neg h12]
  have hs1 : s1 < (tget tables t1).seats.length := lt_of_getElem?_occ hq1
  have ht2' : t2 ≠ t1 := fun h => h12 h.symm
  have htA1 : tget (tables.set t2 (setSeat (tget tables t2) s2 none)) t1
      = tget tables t1 := tget_set_ne ht2' _
  have hlenA : (tables.set t2 (setSeat (tget tables t2) s2 none)).length
      = tables.length := List.length_set _ _ _
  have ht1A : t1 < (tables.set t2 (setSeat (tget tables t2) s2 none)).length := by
    rw [hlenA]
    exact ht1
  have hq1A : (tget (tables.set t2 (setSeat (tget tables t2) s2 none))
      t1).seats[s1]? = some (some q1) := by
    rw [htA1]
    exact hq1
  rcases hfa : findAdjacentSeat
      (tget (tables.set t2 (setSeat (tget tables t2) s2 none)) t1) s1
      with _ | a
  all_goals simp only [hfa]
  · set tablesA := tables.set t2 (setSeat (tget tables t2) s2 none)
      with hAdef
    set Z := insertSeat (tget tablesA t1) (s1 + 1) person2 with hZdef
    set tablesB := tablesA.set t1 Z with hBdef
    have hs1A : s1 < (tget tablesA t1).seats.length := by
      rw [htA1]
      exact hs1
    have hlenB : tablesB.length = tables.length := by
      rw [hBdef, List.length_set, hlenA]
    have htB1 : tget tablesB t1 = Z := tget_set_self ht1A Z
    have htres1 : tget (tablesB.set t2 (removeFirstNull (tget tablesB t2)))
        t1 = Z := by
      rw [tget_set_ne ht2', htB1]
    have hZs1 : Z.seats[s1]? = some (some q1) := by
      show ((tget tablesA t1).seats.insertIdx (s1 + 1) (some person2))[s1]?
        = some (some q1)
      rw [getElem?_insertIdx _ _ _ _ (by omega), if_pos (by omega)]
      exact hq1A
    have hZs2 : Z.seats[s1 + 1]? = some (some person2) := by
      show ((tget tablesA t1).seats.insertIdx (s1 + 1)
        (some person2))[s1 + 1]? = some (some person2)
      rw [getElem?_insertIdx _ _ _ _ (by omega),
        if_neg (show ¬ s1 + 1 < s1 + 1 by omega), if_pos rfl]
    refine ⟨?_, ?_, ?_, ?_⟩
    · show (tablesB.set t2 (removeFirstNull (tget tablesB t2))).length
        = tables.length
      rw [List.length_set]
      exact hlenB
    · show (tget (tablesB.set t2 (removeFirstNull (tget tablesB t2)))
        t1).seats[s1]? = some (some q1)
      rw [htres1]
      exact hZs1
    · show (tget (tablesB.set t2 (removeFirstNull (tget tablesB t2)))
        t1).seats[s1 + 1]? = some (some person2)
      rw [htres1]
      exact hZs2
    · show s1 + 1 ≠ s1
      omega
  · set tablesA := tables.set t2 (setSeat (tget tables t2) s2 none)
      with hAdef
    obtain ⟨hnull, halt⟩ := findAdjacentSeat_null hfa
    have has1 : a ≠ s1 := by
      intro h
      rw [h] at hnull
      rw [hnull] at hq1A
      exact absurd hq1A (by simp)
    have htY1 : tget (tablesA.set t1 (setSeat (tget tablesA t1) a
        (some person2))) t1 = setSeat (tget tablesA t1) a (some person2) :=
      tget_set_self ht1A _
    refine ⟨?_, ?_, ?_, has1⟩
    · show (tablesA.set t1 _).length = tables.length
      rw [List.length_set, hlenA]
    · show (tget (tablesA.set t1 (setSeat (tget tablesA t1) a
        (some person2))) t1).seats[s1]? = some (some q1)
      rw [htY1]
      show ((tget tablesA t1).seats.set a (some person2))[s1]?
        = some (some q1)
      rw [List.getElem?_set_ne has1]
      exact hq1A
    · show (tget (tablesA.set t1 (setSeat (tget tablesA t1) a
        (some person2))) t1).seats[a]? = some (some person2)
      rw [htY1]
      show ((tget tablesA t1).seats.set a (some person2))[a]?
        = some (some person2)
      rw [List.getElem?_set_self halt]

theorem moveToTable_preserves {tables : List Table} {t1 s1 t2 s2 : ℕ}
    {person2 q1 w p q : Person}
    (hq1 : (tget tables t1).seats[s1]? = some (some q1))
    (hw : (tget tables t2).seats[s2]? = some (some w))
    (hq1p : q1 ≠ p) (hq1q : q1 ≠ q) (hwp : w ≠ p) (hwq : w ≠ q)
    (h : SeatedAdjacent tables p q) :
    SeatedAdjacent (moveToTable tables t1 s1 t2 s2 person2).1 p q := by
  unfold moveToTable
  by_cases h12 : t1 = t2
  · rw [if_pos h12]
    exact h
  · rw [if_neg h12]
    have ht2' : t2 ≠ t1 := fun he => h12 he.symm
    have hq1A : (tget (tables.set t2 (setSeat (tget tables t2) s2 none))
        t1).seats[s1]? = some (some q1) := by
      rw [tget_set_ne ht2' _]
      exact hq1
    have hA : SeatedAdjacent
        (tables.set t2 (setSeat (tget tables t2) s2 none)) p q :=
      SeatedAdjacent_set (fun hT => TablePairAdj_set
        (by rw [hw]; simp only [ne_eq, Option.some.injEq]; exact hwp)
        (by rw [hw]; simp only [ne_eq, Option.some.injEq]; exact hwq) hT) h
    rcases hfa : findAdjacentSeat
        (tget (tables.set t2 (setSeat (tget tables t2) s2 none)) t1) s1
        with _ | a
    all_goals simp only [hfa]
    · refine SeatedAdjacent_set (fun hT => TablePairAdj_removeFirstNull hT)
        (SeatedAdjacent_set (fun hT => ?_) hA)
      show TablePairAdj ((tget (tables.set t2 (setSeat (tget tables t2) s2
        none)) t1).seats.insertIdx (s1 + 1) (some person2)) p q
      exact TablePairAdj_insertIdx_after hq1A hq1p hq1q hT
    · obtain ⟨hnull, _⟩ := findAdjacentSeat_null hfa
      refine SeatedAdjacent_set (fun hT => ?_) hA
      show TablePairAdj ((tget (tables.set t2 (setSeat (tget tables t2) s2
        none)) t1).seats.set a (some person2)) p q
      exact TablePairAdj_set (by rw [hnull]; simp) (by rw [hnull]; simp) hT

theorem processPair_establishes {people : List Person} {tables : List Table}
    {nm : String × String} {p1 p2 : Person}
    (hnodup : (people.map Person.name).Nodup)
    (hnm : nm.1 ≠ nm.2)
    (hperm : (occupants tables).Perm people)
    (hl1 : lookupPersonByName people nm.1 = some p1)
    (hl2 : lookupPersonByName people nm.2 = some p2) :
    SeatedAdjacent (processPair people tables nm) p1 p2 := by
  obtain ⟨hp1mem, hp1name⟩ := lookupPersonByName_spec hl1
  obtain ⟨hp2mem, hp2name⟩ := lookupPersonByName_spec hl2
  have hin1 : p1 ∈ occupants tables := hperm.mem_iff.mpr hp1mem
  have hin2 : p2 ∈ occupants tables := hperm.mem_iff.mpr hp2mem
  have hsome1 := findPersonPos_isSome hin1 hp1name
  have hsome2 := findPersonPos_isSome hin2 hp2name
  unfold processPair
  rw [hl1, hl2]
  rcases hf1 : findPersonPos tables nm.1 with _ | pos1
  · rw [hf1] at hsome1
    exact absurd hsome1 (by simp)
  rcases hf2 : findPersonPos tables nm.2 with _ | pos2
  · rw [hf2] at hsome2
    exact absurd hsome2 (by simp)
  obtain ⟨t1, s1⟩ := pos1
  obtain ⟨t2, s2⟩ := pos2
  simp only [hf1, hf2]
  obtain ⟨ht1, q1, hq1, hq1name⟩ := findPersonPos_spec hf1
  obtain ⟨ht2, q2, hq2, hq2name⟩ := findPersonPos_spec hf2
  have hq1mem : q1 ∈ people := hperm.mem_iff.mp (occupant_mem ht1 hq1)
  have hq2mem : q2 ∈ people := hperm.mem_iff.mp (occupant_mem ht2 hq2)
  have hq1eq : q1 = p1 :=
    name_unique hnodup hq1mem hp1mem (by rw [hq1name, hp1name])
  have hq2eq : q2 = p2 :=
    name_unique hnodup hq2mem hp2mem (by rw [hq2name, hp2name])
  subst hq1eq
  subst hq2eq
  have hne12 : q1 ≠ q2 := by
    intro he
    apply hnm
    rw [← hq1name, he, hq2name]
  obtain ⟨_, hmvlen, hmv1, hmv2, hmvne⟩ :=
    moveToTable_spec ht1 ht2 hq1 hq2 hne12
  exact repairAdjacent_establishes (by rw [hmvlen]; exact ht1) hmv1 hmv2
    (fun he => hmvne he.symm)

theorem processPair_preserves {people : List Person} {tables : List Table}
    {nm : String × String} {p q : Person}
    (hnm : nm.1 ≠ nm.2)
    (hd1p : nm.1 ≠ p.name) (hd1q : nm.1 ≠ q.name)
    (hd2p : nm.2 ≠ p.name) (hd2q : nm.2 ≠ q.name)
    (h : SeatedAdjacent tables p q) :
    SeatedAdjacent (processPair people tables nm) p q := by
  unfold processPair
  rcases hl1 : lookupPersonByName people nm.1 with _ | p1
  · exact h
  rcases hl2 : lookupPersonByName people nm.2 with _ | person2
  · exact h
  rcases hf1 : findPersonPos tables nm.1 with _ | pos1
  · exact h
  rcases hf2 : findPersonPos tables nm.2 with _ | pos2
  · exact h
  obtain ⟨t1, s1⟩ := pos1
  obtain ⟨t2, s2⟩ := pos2
  simp only [hf1, hf2]
  obtain ⟨_, hp2name⟩ := lookupPersonByName_spec hl2
  obtain ⟨ht1, q1, hq1, hq1name⟩ := findPersonPos_spec hf1
  obtain ⟨ht2, q2, hq2, hq2name⟩ := findPersonPos_spec hf2
  have hq1p : q1 ≠ p := fun he => hd1p (by rw [← hq1name, he])
  have hq1q : q1 ≠ q := fun he => hd1q (by rw [← hq1name, he])
  have hq2p : q2 ≠ p := fun he => hd2p (by rw [← hq2name, he])
  have hq2q : q2 ≠ q := fun he => hd2q (by rw [← hq2name, he])
  have h2p : person2 ≠ p := fun he => hd2p (by rw [← hp2name, he])
  have h2q : person2 ≠ q := fun he => hd2q (by rw [← hp2name, he])
  by_cases h12 : t1 = t2
  · subst h12
    have hmv : moveToTable tables t1 s1 t1 s2 person2 = (tables, s2) := by
      unfold moveToTable
      rw [if_pos rfl]
    rw [hmv]
    have hs1s2 : s1 ≠ s2 := by
      intro he
      rw [he, hq2] at hq1
      simp only [Option.some.injEq] at hq1
      apply hnm
      rw [← hq1name, ← hq1, hq2name]
    exact repairAdjacent_preserves hq1 hq2 hs1s2 hq1p hq1q hq2p hq2q h
  · obtain ⟨hmlen, hm1, hm2, hmne⟩ :=
      @moveToTable_cross_positions tables t1 s1 t2 s2 person2 q1 h12 ht1 hq1
    have hpres1 : SeatedAdjacent (moveToTable tables t1 s1 t2 s2 person2).1
        p q := moveToTable_preserves hq1 hq2 hq1p hq1q hq2p hq2q h
    exact repairAdjacent_preserves hm1 hm2 (fun he => hmne he.symm)
      hq1p hq1q h2p h2q hpres1

theorem findIndexOfName_isSome_of_lookup {people : List Person} {nm : String}
    {p : Person} (h : lookupPersonByName people nm = some p) :
    (findIndexOfName people nm).isSome := by
  obtain ⟨hmem, hname⟩ := lookupPersonByName_spec h
  exact findIdx?_isSome_of_mem hmem (by simp [hname])

theorem mapSet_ne_nil (m : List (ℕ × ℕ)) (k v : ℕ) : mapSet m k v ≠ [] := by
  unfold mapSet
  split_ifs with h
  · cases m with
    | nil => simp at h
    | cons a t => simp
  · simp

theorem foldl_pairs_preserves_ne_nil (people : List Person)
    (pairNames : List (String × String)) :
    ∀ m : List (ℕ × ℕ), m ≠ [] →
      pairNames.foldl (fun m nm =>
        match findIndexOfName people nm.1, findIndexOfName people nm.2 with
        | some idx1, some idx2 => mapSet (mapSet m idx1 idx2) idx2 idx1
        | _, _ => m) m ≠ [] := by
  induction pairNames with
  | nil =>
    intro m hm
    exact hm
  | cons a rest ih =>
    intro m hm
    rw [List.foldl_cons]
    apply ih
    rcases h1 : findIndexOfName people a.1 with _ | i1
    · simp only [h1]
      exact hm
    rcases h2 : findIndexOfName people a.2 with _ | i2
    · simp only [h1, h2]
      exact hm
    · simp only [h1, h2]
      exact mapSet_ne_nil _ _ _

theorem findConstantPairsFrom_ne_nil {people : List Person}
    {pairNames : List (String × String)} {nm : String × String}
    (hmem : nm ∈ pairNames)
    (h1 : (findIndexOfName people nm.1).isSome)
    (h2 : (findIndexOfName people nm.2).isSome) :
    ∀ m : List (ℕ × ℕ), pairNames.foldl (fun m nm' =>
      match findIndexOfName people nm'.1, findIndexOfName people nm'.2 with
      | some idx1, some idx2 => mapSet (mapSet m idx1 idx2) idx2 idx1
      | _, _ => m) m ≠ [] := by
  induction pairNames with
  | nil => exact absurd hmem (by simp)
  | cons a rest ih =>
    intro m
    rw [List.foldl_cons]
    rcases List.mem_cons.mp hmem with he | hrest
    · subst he
      obtain ⟨i1, hi1⟩ := Option.isSome_iff_exists.mp h1
      obtain ⟨i2, hi2⟩ := Option.isSome_iff_exists.mp h2
      apply foldl_pairs_preserves_ne_nil
      simp only [hi1, hi2]
      exact mapSet_ne_nil _ _ _
    · exact ih hrest _

theorem findConstantPairs_ne_nil {people : List Person} {nm : String × String}
    {p1 p2 : Person} (hmem : nm ∈ CONSTANT_PAIRS_NAMES)
    (hl1 : lookupPersonByName people nm.1 = some p1)
    (hl2 : lookupPersonByName people nm.2 = some p2) :
    findConstantPairs people ≠ [] := by
  unfold findConstantPairs findConstantPairsFrom
  exact findConstantPairsFrom_ne_nil hmem
    (findIndexOfName_isSome_of_lookup hl1)
    (findIndexOfName_isSome_of_lookup hl2) []

theorem enforceConstantPairsOnTables_adjacent {people : List Person}
    {tables : List Table} {nm : String × String}
    (hmem : nm ∈ CONSTANT_PAIRS_NAMES) {p1 p2 : Person}
    (hl1 : lookupPersonByName people nm.1 = some p1)
    (hl2 : lookupPersonByName people nm.2 = some p2)
    (hnodup : (people.map Person.name).Nodup)
    (hperm : (occupants tables).Perm people) :
    SeatedAdjacent (enforceConstantPairsOnTables CONSTANT_PAIRS_NAMES people
      (findConstantPairs people) tables) p1 p2 := by
  obtain ⟨hp1mem, hp1name⟩ := lookupPersonByName_spec hl1
  obtain ⟨hp2mem, hp2name⟩ := lookupPersonByName_spec hl2
  unfold enforceConstantPairsOnTables
  rw [if_neg (show ¬ (findConstantPairs people).isEmpty = true by
    rw [List.isEmpty_iff]
    exact findConstantPairs_ne_nil hmem hl1 hl2)]
  apply SeatedAdjacent_dropTrailing
  show SeatedAdjacent (processPair people (processPair people tables
    ("Majbritt Jensen", "Boris Sidorevitj"))
    ("Ragnhild Ås Harbo", "Janne Rygh")) p1 p2
  rcases List.mem_cons.mp hmem with he | hrest
  · subst he
    refine processPair_preserves (by decide) ?_ ?_ ?_ ?_ ?_
    · rw [hp1name]
      decide
    · rw [hp2name]
      decide
    · rw [hp1name]
      decide
    · rw [hp2name]
      decide
    · exact processPair_establishes hnodup (by decide) hperm hl1 hl2
  · rcases List.mem_cons.mp hrest with he | h0
    · subst he
      have hperm1 : (occupants (processPair people tables
          ("Majbritt Jensen", "Boris Sidorevitj"))).Perm people :=
        processPair_occupants hnodup (by decide) hperm
      exact processPair_establishes hnodup (by decide) hperm1 hl1 hl2
    · exact absurd h0 (by simp)

theorem snakeTables_occupants_people (res : SeatingResult)
    (tableSizes : List ℕ)
    (hperm : res.order.Perm (List.range res.people.length))
    (hcap : res.people.length ≤ tableSizes.sum) :
    (occupants (snakeTables res.people res.order tableSizes)).Perm
      res.people := by
  have hlen : res.order.length = res.people.length := by
    rw [hperm.length_eq, List.length_range]
  have hcap2 : res.order.length
      ≤ (tableSizes.map (fun s => ceilHalf s + ceilHalf s)).sum := by
    rw [hlen]
    exact le_trans hcap (sum_le_capacity tableSizes)
  have hocc := snakeTables_occupants res.people res.order tableSizes hcap2
  have h2 : (res.order.map (pget res.people)).Perm
      ((List.range res.people.length).map (pget res.people)) :=
    hperm.map _
  have h3 : (List.range res.people.length).map (pget res.people)
      = res.people := map_getD_range res.people defaultPerson
  exact hocc.trans (h2.trans (by rw [h3]))

/-- C2: for every constraint pair of the hard-coded registry whose two
names both resolve to participants, after `assignToTables` completes
(snake placement, the constant-pair repair pass and trailing-empty-seat
stripping) the two members occupy seats of the same table whose indices
are ring-adjacent: they differ by one, or one is the first seat and the
other the last seat of that table (under the standing preconditions that
the order is a permutation of the participant indices, participant names
are duplicate-free, and the declared table capacity covers everyone). -/
theorem assignToTables_resolved_pair_ring_adjacent
    (res : SeatingResult) (tableSizes : List ℕ)
    (nm : String × String) (hmem : nm ∈ CONSTANT_PAIRS_NAMES)
    (p1 p2 : Person)
    (hl1 : lookupPersonByName res.people nm.1 = some p1)
    (hl2 : lookupPersonByName res.people nm.2 = some p2)
    (hperm : res.order.Perm (List.range res.people.length))
    (hnodup : (res.people.map Person.name).Nodup)
    (hcap : res.people.length ≤ tableSizes.sum) :
    SeatedAdjacent (assignToTables res tableSizes).tables p1 p2 := by
  unfold assignToTables
  show SeatedAdjacent (enforceConstantPairsOnTables CONSTANT_PAIRS_NAMES
    res.people (findConstantPairs res.people)
    (snakeTables res.people res.order tableSizes)) p1 p2
  exact enforceConstantPairsOnTables_adjacent hmem hl1 hl2 hnodup
    (snakeTables_occupants_people res tableSizes hperm hcap)

theorem assignToTables_resolved_pair_ring_adjacent_witness :
    SeatedAdjacent (assignToTables ⟨[0, 1], 0,
      [⟨"Majbritt Jensen", ∅⟩, ⟨"Boris Sidorevitj", ∅⟩]⟩ [2]).tables
      ⟨"Majbritt Jensen", ∅⟩ ⟨"Boris Sidorevitj", ∅⟩ :=
  assignToTables_resolved_pair_ring_adjacent _ _
    ("Majbritt Jensen", "Boris Sidorevitj") (by decide) _ _
    (by decide) (by decide) (by decide) (by decide) (by decide)
